import Mathlib

/-!
# Verification of the leela-zero NNCache / DistributedNetwork core

Shallow embedding of the bit-packed policy codec, the two-tier neural-network
cache and the distributed client's response handling, translated from:

* `src/Utils.h`            — `Utils::bitstream` (LSB-first bit packing into
                             64-bit words)
* `src/NNCache.cpp`        — `NNCache::insert`, `NNCache::resize`,
                             `NNCache::load_cachefile`, the policy codec
                             (`CompressedEntry` constructor, `get`, `test_get`)
* `src/DistributedNetwork.cpp` — `DistributedClientNetwork::get_output_internal`
                             (response-block decoding on the success path)

Modelling conventions:

* Machine integers (`size_t`, `uint64_t`, `int`) are `Nat`, with an explicit
  `% 2 ^ 64` where the C++ would truncate on a 64-bit store.  C++ shifts
  `1LL << w` are given their mathematical meaning `2 ^ w`.
* `float` values that the code only copies bit-for-bit (`policy_pass`,
  `winrate`, wire floats) are modelled as their raw bit patterns, i.e. `Nat`.
* The policy entries, which the code does quantize with arithmetic, are
  modelled as `ℚ`.  Every float operation the codec performs on them
  (`p * 2048.0`, `symbol / 2048.0`, `+= 64 / 2048.0 * bias`) is exact in
  IEEE float for the quantities involved (11-bit numerators over the power-of-
  two denominator 2048), so rational arithmetic is a faithful model.
  `static_cast<int>(x)` truncates toward zero; for the non-negative policies
  of the data model (`policy[i] ∈ [0,1]`, spec §3) this is `⌊x⌋`.
* Exceptions are modelled with `Except String`.
* The single-threaded semantics is modelled (locks are ignored); concurrency
  is out of scope of the claims treated here.
-/

/-! ## Bit-level utilities (model vocabulary, not from the source) -/

/-- Value of a bit list, least-significant bit first. -/
def bitsVal : List Bool → Nat
  | [] => 0
  | b :: l => (cond b 1 0) + 2 * bitsVal l

/-- The `w` low bits of `v` as a list, least-significant first. -/
def natBits (w v : Nat) : List Bool :=
  (List.range w).map v.testBit

/-- Read `cnt` bits of a bit list starting at `start`, LSB first; positions
past the end of the list read as `false` (the bitstream's words are
zero-filled beyond the bit count). -/
def bitValueL (B : List Bool) (start cnt : Nat) : Nat :=
  bitsVal ((List.range cnt).map (fun i => B.getD (start + i) false))

/-! ## `Utils::bitstream` (src/Utils.h, lines 72-141)

The C++ object holds `_bitcount`, `_capacity` and a zero-initialised array of
64-bit words of size `_capacity / 64`.  The model stores the words
themselves; the capacity is `64 * words.length`. -/

structure bitstream where
  bitcount : Nat
  words : List Nat
deriving DecidableEq, Repr

/-- `bitstream::clear` (also the default-constructed stream). -/
def bitstream.clear : bitstream := ⟨0, []⟩

/-- `bitstream::size`. -/
def bitstream.size (st : bitstream) : Nat := st.bitcount

/-- `bitstream::expand`: round the requested bit count up to a multiple of
64; if the capacity already suffices do nothing, otherwise reallocate,
copying the old words and zero-filling the rest. -/
def bitstream.expand (st : bitstream) (count : Nat) : bitstream :=
  let count := (count + 63) / 64 * 64
  if 64 * st.words.length ≥ count then st
  else ⟨st.bitcount, st.words ++ List.replicate (count / 64 - st.words.length) 0⟩

/-- The `while (count > 0)` loop of `bitstream::push_bits`: per iteration OR
the low `bits_to_add = min (64 - _bitcount % 64) count` bits of `value`
into the current word at offset `_bitcount % 64` (a 64-bit store, hence the
`% 2 ^ 64`), then advance. -/
def bitstream.pushLoop (words : List Nat) (bitcount count value : Nat) :
    List Nat × Nat :=
  if count = 0 then (words, bitcount)
  else
    let bits_to_add := min (64 - bitcount % 64) count
    let masked_value := value &&& ((1 <<< bits_to_add) - 1)
    let idx := bitcount / 64
    let words' :=
      words.set idx (((words.getD idx 0) ||| (masked_value <<< (bitcount % 64))) % 2 ^ 64)
    bitstream.pushLoop words' (bitcount + bits_to_add) (count - bits_to_add)
      (value >>> bits_to_add)
termination_by count
decreasing_by
  have h1 : bitcount % 64 < 64 := Nat.mod_lt _ (by omega)
  omega

/-- `bitstream::push_bits` (src/Utils.h, lines 108-125). -/
def bitstream.push_bits (st : bitstream) (count value : Nat) : bitstream :=
  let st1 := if st.bitcount + count > 64 * st.words.length
             then st.expand (st.bitcount + count * 2) else st
  let r := bitstream.pushLoop st1.words st1.bitcount count value
  ⟨r.2, r.1⟩

/-- `bitstream::read_bits` (src/Utils.h, lines 126-140): 0 past the
capacity; reads straddling a word boundary recurse on the upper part. -/
def bitstream.read_bits (st : bitstream) (start_loc count : Nat) : Nat :=
  if start_loc ≥ 64 * st.words.length then 0
  else if count > 64 - start_loc % 64 then
    (st.read_bits (start_loc + (64 - start_loc % 64)) (count - (64 - start_loc % 64)))
        <<< (64 - start_loc % 64)
      ||| ((st.words.getD (start_loc / 64) 0) >>> (start_loc % 64))
  else ((st.words.getD (start_loc / 64) 0) >>> (start_loc % 64)) &&& ((1 <<< count) - 1)
termination_by count
decreasing_by
  have h1 : start_loc % 64 < 64 := Nat.mod_lt _ (by omega)
  omega

/-- Bit `i` of the stream's word array. -/
def bitstream.streamBit (st : bitstream) (i : Nat) : Bool :=
  (st.words.getD (i / 64) 0).testBit (i % 64)

/-- The stream's first `bitcount` bits as a list, LSB of word 0 first. -/
def bitstream.toBits (st : bitstream) : List Bool :=
  (List.range st.bitcount).map st.streamBit

/-- Well-formedness maintained by the stream's operations: words fit in 64
bits, the bit count fits the capacity, and bits at positions at or past the
bit count are zero (new words are zero-filled and `push_bits` only ORs bits
below the new count). -/
def bitstream.wf (st : bitstream) : Prop :=
  (∀ w ∈ st.words, w < 2 ^ 64) ∧
  st.bitcount ≤ 64 * st.words.length ∧
  ∀ i, st.bitcount ≤ i → st.streamBit i = false

/-! ## The policy codec (src/NNCache.cpp, lines 337-552)

Symbols: `V0..V63` a single quantum value, `Z0..Z15` a run of 2..17 zero
quanta, `X0..X31` a modifier of the previous symbol. -/

/-- Number of board intersections: `NUM_INTERSECTIONS = 361` for the 19x19
board (config.h; spec §3 and §8 scenario 1). -/
def NUM_INTERSECTIONS : Nat := 361

def V_BASE : Nat := 0
def Z_BASE : Nat := 64
def X_BASE : Nat := 80

/-- One row of `encode_table`: the code value, its bit width, and the number
of consecutive symbols sharing this row (disambiguated by `log2 count` index
bits above the code). -/
structure NNCompressEncodeTable where
  code : Nat
  width : Nat
  count : Nat
deriving DecidableEq, Repr

/-- `encode_table` (src/NNCache.cpp, lines 360-379). -/
def encode_table : List NNCompressEncodeTable :=
  [⟨0x4, 4, 1⟩,  -- V0
   ⟨0x0, 3, 1⟩,  -- V1
   ⟨0xc, 4, 2⟩,  -- V2 ~ V3
   ⟨0x2, 4, 4⟩,  -- V4 ~ V7
   ⟨0xa, 4, 8⟩,  -- V8 ~ V15
   ⟨0x6, 4, 16⟩, -- V16 ~ V31
   ⟨0xe, 4, 32⟩, -- V32 ~ V63
   ⟨0x1, 4, 1⟩,  -- Z0
   ⟨0x9, 4, 1⟩,  -- Z1
   ⟨0x5, 4, 2⟩,  -- Z2 ~ Z3
   ⟨0xd, 4, 4⟩,  -- Z4 ~ Z7
   ⟨0x3, 4, 8⟩,  -- Z8 ~ Z15
   ⟨0xb, 4, 1⟩,  -- X0
   ⟨0x7, 5, 1⟩,  -- X1
   ⟨0x17, 5, 2⟩, -- X2 ~ X3
   ⟨0xf, 5, 4⟩,  -- X4 ~ X7
   ⟨0x1f, 6, 8⟩, -- X8 ~ X15
   ⟨0x3f, 6, 16⟩] -- X16 ~ X31

/-- `bit_log2` (src/NNCache.cpp, lines 381-390). -/
def bit_log2 (x : Nat) : Nat :=
  if x = 1 then 0
  else if x = 2 then 1
  else if x = 4 then 2
  else if x = 8 then 3
  else if x = 16 then 4
  else if x = 32 then 5
  else if x = 64 then 6
  else 7

/-- The table scan of the `push_symbol` lambda (src/NNCache.cpp, lines
508-520): find the row whose symbol range `[base, base + count)` contains
`symbol`, tracking the accumulated `symbol_base`. -/
def findEntry : List NNCompressEncodeTable → Nat → Nat → Option (NNCompressEncodeTable × Nat)
  | [], _, _ => none
  | e :: rest, base, symbol =>
    if base ≤ symbol ∧ symbol < base + e.count then some (e, base)
    else findEntry rest (base + e.count) symbol

/-- `push_symbol` (src/NNCache.cpp, lines 508-520): push
`code | (symbol % count) << width`, of width `width + bit_log2 count`.  If
no row matches (symbol ≥ 112, unreachable for in-range quanta) nothing is
pushed, matching the fall-through of the C++ loop. -/
def push_symbol (cp : bitstream) (symbol : Nat) : bitstream :=
  match findEntry encode_table 0 symbol with
  | some (e, _) =>
      cp.push_bits (e.width + bit_log2 e.count) (e.code ||| ((symbol % e.count) <<< e.width))
  | none => cp

/-- The decoder's table scan (src/NNCache.cpp, lines 401-410 and 453-462):
given the 10 low bits read at the cursor, find the first row whose code
matches the low `width` bits, returning the decoded symbol and the number of
bits consumed.  `none` corresponds to the loop falling through (then the C++
leaves `symbol = 0` and does not advance `iptr`). -/
def scanGo : List NNCompressEncodeTable → Nat → Nat → Option (Nat × Nat)
  | [], _, _ => none
  | e :: rest, base, lower_bits =>
    if e.code = lower_bits &&& ((1 <<< e.width) - 1) then
      some (base + (lower_bits >>> e.width) % e.count, e.width + bit_log2 e.count)
    else scanGo rest (base + e.count) lower_bits

/-- One symbol read of the decoder on the word-level stream: read 10 bits at
`iptr`, scan the table; on a match return the symbol and the advanced
cursor, otherwise `(0, iptr)` exactly as the C++ does. -/
def readSymbolStep (cp : bitstream) (iptr : Nat) : Nat × Nat :=
  match scanGo encode_table 0 (cp.read_bits iptr 10) with
  | some (s, w) => (s, iptr + w)
  | none => (0, iptr)

/-- Same as `readSymbolStep` but over a plain bit list (proof-side mirror of
the decoder; related to the word-level reader through `bitstream.toBits`). -/
def readSymbolStepB (B : List Bool) (iptr : Nat) : Nat × Nat :=
  match scanGo encode_table 0 (bitValueL B iptr 10) with
  | some (s, w) => (s, iptr + w)
  | none => (0, iptr)

/-- The decode loop of `CompressedEntry::get` (src/NNCache.cpp, lines
445-492), on the word-level stream.  State: input cursor `iptr`, output
cursor `optr` (which always equals `acc.length`), `prev_type` (-1 none,
0 value, 1 zero-run).  Returns the decoded policy and the final cursor.
The C++ writes zero runs one slot at a time, throwing "Buffer overflow" when
a write would land at index `NUM_INTERSECTIONS`; that is equivalent to the
single test `optr + run > N` before the run. -/
def getLoop (N : Nat) (cp : bitstream) (iptr optr : Nat) (prev_type : Int)
    (acc : List ℚ) : Except String (List ℚ × Nat) :=
  if h : optr < N then
    let sr := readSymbolStep cp iptr
    let symbol := sr.1
    let iptr' := sr.2
    if symbol < Z_BASE then
      getLoop N cp iptr' (optr + 1) 0 (acc ++ [(symbol : ℚ) / 2048])
    else if symbol < X_BASE then
      let run := symbol - Z_BASE + 2
      if optr + run > N then .error "Buffer overflow"
      else getLoop N cp iptr' (optr + run) 1 (acc ++ List.replicate run 0)
    else
      let bias := symbol - X_BASE + 1
      if hp : prev_type = 0 then
        getLoop N cp iptr' optr (-1)
          (acc.dropLast ++ [acc.getLast?.getD 0 + 64 / 2048 * (bias : ℚ)])
      else if prev_type = 1 then
        let run := bias * 16
        if optr + run > N then .error "Buffer overflow"
        else getLoop N cp iptr' (optr + run) (-1) (acc ++ List.replicate run 0)
      else .error "Didn't expect X type symbol"
  else .ok (acc, iptr)
termination_by 2 * (N - optr) + (if prev_type = 0 then 1 else 0)
decreasing_by
  · split <;> omega
  · split <;> omega
  · simp only [hp]; norm_num
  · split <;> omega

/-- The loop of `CompressedEntry::test_get` (src/NNCache.cpp, lines
393-436): identical symbol stream and cursor movement as `getLoop`, but no
output is produced.  Returns the final `iptr`. -/
def testGetLoop (N : Nat) (cp : bitstream) (iptr optr : Nat) (prev_type : Int) :
    Except String Nat :=
  if h : optr < N then
    let sr := readSymbolStep cp iptr
    let symbol := sr.1
    let iptr' := sr.2
    if symbol < Z_BASE then
      testGetLoop N cp iptr' (optr + 1) 0
    else if symbol < X_BASE then
      let run := symbol - Z_BASE + 2
      if optr + run > N then .error "Buffer overflow"
      else testGetLoop N cp iptr' (optr + run) 1
    else
      let bias := symbol - X_BASE + 1
      if hp : prev_type = 0 then
        testGetLoop N cp iptr' optr (-1)
      else if prev_type = 1 then
        let run := bias * 16
        if optr + run > N then .error "Buffer overflow"
        else testGetLoop N cp iptr' (optr + run) (-1)
      else .error "Didn't expect X type symbol"
  else .ok iptr
termination_by 2 * (N - optr) + (if prev_type = 0 then 1 else 0)
decreasing_by
  · split <;> omega
  · split <;> omega
  · simp only [hp]; norm_num
  · split <;> omega

/-- Proof-side mirror of `getLoop` over a plain bit list. -/
def getLoopB (N : Nat) (B : List Bool) (iptr optr : Nat) (prev_type : Int)
    (acc : List ℚ) : Except String (List ℚ × Nat) :=
  if h : optr < N then
    let sr := readSymbolStepB B iptr
    let symbol := sr.1
    let iptr' := sr.2
    if symbol < Z_BASE then
      getLoopB N B iptr' (optr + 1) 0 (acc ++ [(symbol : ℚ) / 2048])
    else if symbol < X_BASE then
      let run := symbol - Z_BASE + 2
      if optr + run > N then .error "Buffer overflow"
      else getLoopB N B iptr' (optr + run) 1 (acc ++ List.replicate run 0)
    else
      let bias := symbol - X_BASE + 1
      if hp : prev_type = 0 then
        getLoopB N B iptr' optr (-1)
          (acc.dropLast ++ [acc.getLast?.getD 0 + 64 / 2048 * (bias : ℚ)])
      else if prev_type = 1 then
        let run := bias * 16
        if optr + run > N then .error "Buffer overflow"
        else getLoopB N B iptr' (optr + run) (-1) (acc ++ List.replicate run 0)
      else .error "Didn't expect X type symbol"
  else .ok (acc, iptr)
termination_by 2 * (N - optr) + (if prev_type = 0 then 1 else 0)
decreasing_by
  · split <;> omega
  · split <;> omega
  · simp only [hp]; norm_num
  · split <;> omega

/-- `NNCache::Netresult` (src/NNCache.h, lines 52-65): the policy vector and
the two scalar outputs.  The scalars are raw float32 bit patterns (the code
never computes with them). -/
structure Netresult where
  policy : List ℚ
  policy_pass : Nat
  winrate : Nat
deriving DecidableEq, Repr

/-- `NNCache::CompressedEntry`. -/
structure CompressedEntry where
  compressed_policy : bitstream
  policy_pass : Nat
  winrate : Nat
deriving DecidableEq, Repr

/-- The quantum of a policy entry: `static_cast<int>(p * 2048.0)`.  For the
non-negative policies of the data model, truncation toward zero is the
floor, and the float computation is exact (multiplication by 2^11). -/
def quant (p : ℚ) : Nat := (⌊p * 2048⌋).toNat

/-- The inner zero-run counter of the encoder (src/NNCache.cpp, lines
525-529): number of leading entries quantizing to 0. -/
def zeroRun : List ℚ → Nat
  | [] => 0
  | p :: rest => if quant p = 0 then 1 + zeroRun rest else 0

/-- The encoder's main loop (`CompressedEntry::CompressedEntry`,
src/NNCache.cpp, lines 522-551), recursing over the remaining policy
entries. -/
def encodeLoop (l : List ℚ) (cp : bitstream) : bitstream :=
  match l with
  | [] => cp
  | p :: rest =>
    if quant p = 0 then
      let count := 1 + zeroRun rest
      let cp' :=
        if count = 1 then push_symbol cp V_BASE
        else
          let bias := (count - 2) / 16
          let offset := (count - 2) % 16
          let cp2 := push_symbol cp (offset + Z_BASE)
          if bias ≠ 0 then push_symbol cp2 (bias - 1 + X_BASE) else cp2
      encodeLoop (rest.drop (count - 1)) cp'
    else
      let v := quant p
      let bias := v / 64
      let offset := v % 64
      let cp' := push_symbol cp (V_BASE + offset)
      let cp2 := if bias ≠ 0 then push_symbol cp' (X_BASE + bias - 1) else cp'
      encodeLoop rest cp2
termination_by l.length
decreasing_by
  · simp; omega
  · simp

/-- The `CompressedEntry(const Netresult&)` constructor (src/NNCache.cpp,
lines 503-552): copy the scalars, encode the policy into a fresh
bitstream. -/
def CompressedEntry.ofNetresult (r : Netresult) : CompressedEntry :=
  ⟨encodeLoop r.policy bitstream.clear, r.policy_pass, r.winrate⟩

/-- The final cursor check shared by `get` and `test_get` (src/NNCache.cpp,
lines 438-441 and 497-500): `iptr > size || iptr < size - 8` with `size_t`
arithmetic — for `size < 8` the subtraction wraps and the check always
fails (`iptr` is far below `2^64 - 8`), hence the `size < 8` disjunct. -/
def sizeCheckFails (iptr size : Nat) : Prop :=
  iptr > size ∨ size < 8 ∨ iptr + 8 < size

instance (iptr size : Nat) : Decidable (sizeCheckFails iptr size) := by
  unfold sizeCheckFails; infer_instance

/-- `CompressedEntry::get` (src/NNCache.cpp, lines 445-501). -/
def CompressedEntry.get (e : CompressedEntry) : Except String Netresult :=
  match getLoop NUM_INTERSECTIONS e.compressed_policy 0 0 (-1) [] with
  | .error msg => .error msg
  | .ok (pol, iptr) =>
    if sizeCheckFails iptr e.compressed_policy.size then .error "Unexpected size"
    else .ok ⟨pol, e.policy_pass, e.winrate⟩

/-- `CompressedEntry::test_get` (src/NNCache.cpp, lines 393-442). -/
def CompressedEntry.test_get (e : CompressedEntry) : Except String Unit :=
  match testGetLoop NUM_INTERSECTIONS e.compressed_policy 0 0 (-1) with
  | .error msg => .error msg
  | .ok iptr =>
    if sizeCheckFails iptr e.compressed_policy.size then .error "Unexpected size"
    else .ok ()

/-! ### Proof-side symbol-level view of the encoder -/

/-- Zero-run counter on the quantized policy. -/
def zeroRunQ : List Nat → Nat
  | [] => 0
  | q :: rest => if q = 0 then 1 + zeroRunQ rest else 0

/-- The symbol sequence the encoder emits for a quantized policy (mirrors
`encodeLoop` group by group). -/
def encSymsQ : List Nat → List Nat
  | [] => []
  | q :: rest =>
    if q = 0 then
      let count := 1 + zeroRunQ rest
      (if count = 1 then [V_BASE]
       else
         [(count - 2) % 16 + Z_BASE] ++
         (if (count - 2) / 16 ≠ 0 then [(count - 2) / 16 - 1 + X_BASE] else []))
      ++ encSymsQ (rest.drop (count - 1))
    else
      ([V_BASE + q % 64] ++ (if q / 64 ≠ 0 then [X_BASE + q / 64 - 1] else []))
      ++ encSymsQ rest
termination_by l => l.length
decreasing_by
  · simp; omega
  · simp

/-- Width in bits of a symbol's code. -/
def symWidth (s : Nat) : Nat :=
  match findEntry encode_table 0 s with
  | some (e, _) => e.width + bit_log2 e.count
  | none => 0

/-- Value (LSB-first) of a symbol's code, `code | (s % count) << width`. -/
def symVal (s : Nat) : Nat :=
  match findEntry encode_table 0 s with
  | some (e, _) => e.code ||| ((s % e.count) <<< e.width)
  | none => 0

/-- The bits a symbol pushes. -/
def symEnc (s : Nat) : List Bool := natBits (symWidth s) (symVal s)

/-- The bits a symbol list pushes. -/
def symsBits (l : List Nat) : List Bool := (l.map symEnc).flatten

/-! ## NNCache state and operations (src/NNCache.h, src/NNCache.cpp)

The on-disk log is modelled as the list of items this process appends after
opening the writer: 16-byte all-0xFF guards and records
`u64 hash, f32 policy_pass, f32 winrate, u8 n, n policy bytes`
(file format, spec §6.1).  `std::unordered_map` iteration order is
unspecified; the model fixes it to insertion order (new keys at the tail,
`erase(begin())` drops the head, assignment to an existing key keeps its
position).  No theorem below depends on this choice except where the map
has at most one element. -/

def MAX_CACHE_COUNT : Nat := 150000
def MIN_CACHE_COUNT : Nat := 6000
def ENTRY_SIZE : Nat := 15000

/-- `0xffff'ffff'ffff'ffffLL`, the reserved fingerprint. -/
def SENTINEL_HASH : Nat := 0xffffffffffffffff

/-- One item appended to the cache file: a 16-byte guard, or a record.
`length_byte` is the value of the `u8 n` field (the code writes
`(char)size_in_bytes`, and only does so when `size_in_bytes < 256`). -/
inductive LogItem where
  | guard : LogItem
  | record (hash policy_pass winrate length_byte : Nat) (policy_bytes : List Nat) : LogItem
deriving DecidableEq, Repr

/-- The record's length byte, `none` for a guard. -/
def recLen : LogItem → Option Nat
  | .guard => none
  | .record _ _ _ n _ => some n

/-- The record's fingerprint, `none` for a guard. -/
def recHash : LogItem → Option Nat
  | .guard => none
  | .record h _ _ _ _ => some h

def countGuards (l : List LogItem) : Nat :=
  l.countP (fun it => match it with | .guard => true | _ => false)

def countRecords (l : List LogItem) : Nat :=
  l.countP (fun it => match it with | .record _ _ _ _ _ => true | _ => false)

/-- The byte serialisation of a compressed policy (src/NNCache.cpp, lines
243-246): `read_bits(i, 8)` for `i = 0, 8, 16, ...` while `i < size`, i.e.
`⌈size / 8⌉` bytes, the last padded with zero bits. -/
def policyBytes (cp : bitstream) : List Nat :=
  (List.range ((cp.size + 7) / 8)).map (fun k => cp.read_bits (8 * k) 8)

/-- `m_outfile_map[hash] = pos` on the model of `std::unordered_map`:
update in place if present, else append. -/
def mapInsert (m : List (Nat × Nat)) (k v : Nat) : List (Nat × Nat) :=
  if (m.lookup k).isSome then m.map (fun p => if p.1 = k then (k, v) else p)
  else m ++ [(k, v)]

/-- The mutable state of an `NNCache` (src/NNCache.h, lines 97-130).
`m_outfile_pos` is the writer's byte position (`tellp`); `m_outfile_open`
and `m_outfile_good` model `m_outfile.is_open()` and `m_outfile.good()`. -/
structure CacheState where
  m_cache : List (Nat × Netresult)
  m_order : List Nat
  m_outfile : List LogItem
  m_outfile_pos : Nat
  m_outfile_open : Bool
  m_outfile_good : Bool
  m_outfile_map : List (Nat × Nat)
  m_filename : String
  m_size : Nat
  m_max_cache_size : Nat
  m_max_outfile_map_size : Nat
  m_hits : Nat
  m_file_hits : Nat
  m_lookups : Nat
  m_inserts : Nat
deriving DecidableEq, Repr

/-- Membership in the memory tier, `m_cache.find(hash) != m_cache.end()`
(src/NNCache.cpp, lines 185 and 222). -/
def inMemoryTier (st : CacheState) (hash : Nat) : Bool :=
  (st.m_cache.lookup hash).isSome

/-- `NNCache::insert` (src/NNCache.cpp, lines 218-278). -/
def NNCache.insert (st : CacheState) (hash : Nat) (result : Netresult) : CacheState :=
  if (st.m_cache.lookup hash).isSome then st  -- Already in the cache.
  else
    let ce := CompressedEntry.ofNetresult result
    let size_in_bytes := (ce.compressed_policy.size + 7) / 8  -- ceil operator
    let st1 : CacheState :=
      if size_in_bytes < 256 ∧ hash ≠ SENTINEL_HASH ∧
          st.m_outfile_open ∧ st.m_outfile_good then
        let pos := st.m_outfile_pos
        let sta := { st with
          m_outfile := st.m_outfile ++
            [LogItem.record hash ce.policy_pass ce.winrate size_in_bytes
              (policyBytes ce.compressed_policy)],
          m_outfile_pos := st.m_outfile_pos + 17 + size_in_bytes,
          m_outfile_map := mapInsert st.m_outfile_map hash pos }
        let stb :=
          if sta.m_outfile_map.length % 1024 = 0 then
            { sta with m_outfile := sta.m_outfile ++ [LogItem.guard],
                       m_outfile_pos := sta.m_outfile_pos + 16 }
          else sta
        if stb.m_outfile_map.length > stb.m_max_outfile_map_size then
          { stb with m_outfile_map := stb.m_outfile_map.drop 1 }  -- erase(begin())
        else stb
      else st
    let st2 : CacheState := { st1 with
      m_cache := st1.m_cache ++ [(hash, result)],
      m_order := st1.m_order ++ [hash],
      m_inserts := st1.m_inserts + 1 }
    if st2.m_order.length > st2.m_max_cache_size then
      { st2 with
        m_cache := st2.m_cache.eraseP (fun p => p.1 == st2.m_order.headD 0),
        m_order := st2.m_order.drop 1 }
    else st2

/-- The `while (m_order.size() > m_max_cache_size)` loop of
`NNCache::resize` (src/NNCache.cpp, lines 308-311). -/
def evictOrderLoop (cache : List (Nat × Netresult)) (order : List Nat)
    (maxsz : Nat) : List (Nat × Netresult) × List Nat :=
  if _h : order.length > maxsz then
    evictOrderLoop (cache.eraseP (fun p => p.1 == order.headD 0)) (order.drop 1) maxsz
  else (cache, order)
termination_by order.length
decreasing_by
  simp only [List.length_drop]
  omega

/-- `NNCache::resize(int, bool)` (src/NNCache.cpp, lines 280-319).
The code asserts `size >= MIN_CACHE_COUNT`; the subtractions below are the
C++ `int` ones, non-negative under that assertion.  An unopened
`std::ofstream` reports `good()`; the model reads the stored flag. -/
def NNCache.resize (st : CacheState) (size : Nat) (reserve_filecache : Bool) :
    CacheState :=
  let st := { st with m_size := size }
  let size' :=
    if reserve_filecache ∨ st.m_outfile_good ∨ st.m_outfile_map ≠ [] then
      let s1 := if size < MIN_CACHE_COUNT then MIN_CACHE_COUNT else size
      let s2 := MIN_CACHE_COUNT + (s1 - MIN_CACHE_COUNT) / 2
      if s2 > MAX_CACHE_COUNT then MAX_CACHE_COUNT else s2
    else size
  let st := { st with
    m_max_cache_size := size',
    m_max_outfile_map_size := (st.m_size - size') * ENTRY_SIZE / 32 }
  let co := evictOrderLoop st.m_cache st.m_order st.m_max_cache_size
  let st := { st with m_cache := co.1, m_order := co.2 }
  { st with m_outfile_map :=
      st.m_outfile_map.drop (st.m_outfile_map.length - st.m_max_outfile_map_size) }

/-! ### `load_cachefile` and the on-disk scan

Files are byte lists; `fs` maps a filename to its content if the file
exists and is readable.  A read past the end of the file makes the parse
fail (the C++ stream's failbit path). -/

def MAGIC_BYTES : List Nat := [0xfe, 0x4c, 0x4e, 0x43]  -- "\xfe", 'L', 'N', 'C'

/-- Little-endian byte list to value. -/
def leBytesToNat (bs : List Nat) : Nat := bs.foldr (fun b acc => b + 256 * acc) 0

/-- `CompressedEntry::read` (src/NNCache.cpp, lines 158-179) at byte
position `pos`, with the default `expected_hash` (the sentinel, so the hash
comparison is skipped): 8 bytes hash, 4+4 bytes scalars, 1 byte `c`, then
`c` policy bytes pushed 8 bits at a time into a cleared, pre-expanded
stream.  Returns the hash, the next position and the entry. -/
def parseRecord (bytes : List Nat) (pos : Nat) : Option (Nat × Nat × CompressedEntry) :=
  if pos + 17 ≤ bytes.length then
    let hash := leBytesToNat ((bytes.drop pos).take 8)
    let pass := leBytesToNat ((bytes.drop (pos + 8)).take 4)
    let win := leBytesToNat ((bytes.drop (pos + 12)).take 4)
    let c := bytes.getD (pos + 16) 0
    if pos + 17 + c ≤ bytes.length then
      let cp := ((bytes.drop (pos + 17)).take c).foldl
        (fun s b => s.push_bits 8 b) (bitstream.clear.expand (c * 8))
      some (hash, pos + 17 + c, ⟨cp, pass, win⟩)
    else none
  else none

/-- The `skip_guard` lambda (src/NNCache.cpp, lines 83-95): scan forward for
16 consecutive `0xff` bytes; `none` when the stream ends first. -/
def skipGuard (bytes : List Nat) (pos cnt : Nat) : Option Nat :=
  if cnt ≥ 16 then some pos
  else if h : pos < bytes.length then
    skipGuard bytes (pos + 1) (if bytes.getD pos 0 = 0xff then cnt + 1 else 0)
  else none
termination_by bytes.length - pos

/-- The inner record loop (src/NNCache.cpp, lines 102-115): parse records,
validating each with `test_get`, recording `(hash, pos)`; on any failure
rewind to the failed record's start and break.  `fuel` bounds the
iterations (each consumes at least 17 bytes, so `bytes.length` suffices). -/
def recordLoop (bytes : List Nat) : Nat → Nat → List (Nat × Nat) → List (Nat × Nat) × Nat
  | 0, pos, acc => (acc, pos)
  | fuel + 1, pos, acc =>
    match parseRecord bytes pos with
    | none => (acc, pos)
    | some (hash, pos', e) =>
      match e.test_get with
      | .error _ => (acc, pos)
      | .ok _ => recordLoop bytes fuel pos' (mapInsert acc hash pos)

/-- The outer `while (ifs.good())` loop (src/NNCache.cpp, lines 98-116):
skip to the next guard, then read records until a parse error.  `fuel`
bounds the iterations (each guard skip consumes at least 16 bytes, so
`bytes.length + 1` suffices). -/
def scanLoop (bytes : List Nat) : Nat → Nat → List (Nat × Nat) → List (Nat × Nat)
  | 0, _, acc => acc
  | fuel + 1, pos, acc =>
    match skipGuard bytes pos 0 with
    | none => acc
    | some p =>
      let r := recordLoop bytes bytes.length p acc
      scanLoop bytes fuel r.2 r.1

/-- The tail of `load_cachefile` (src/NNCache.cpp, lines 119-154): fail on a
read-only file with no records; in write mode open the writer in append
mode, write the magic if the file is new, and write a fresh 16-byte
guard.  (Write failures, lines 147-151, are not modelled: the writer model
is always healthy.) -/
def loadFinish (st : CacheState) (fileLen : Nat) (read_only file_did_not_exist : Bool) :
    Bool × CacheState :=
  if st.m_outfile_map = [] ∧ read_only then (false, { st with m_filename := "" })
  else if read_only then (true, st)
  else
    let pos0 := fileLen + (if file_did_not_exist then 4 else 0)
    (true, { st with m_outfile_open := true, m_outfile_good := true,
                     m_outfile := [LogItem.guard], m_outfile_pos := pos0 + 16 })

/-- `NNCache::load_cachefile` (src/NNCache.cpp, lines 43-155). -/
def NNCache.load_cachefile (st : CacheState) (fs : String → Option (List Nat))
    (filename : String) (read_only : Bool) : Bool × CacheState :=
  let st := { st with m_outfile_map := [], m_outfile := [], m_outfile_pos := 0,
                      m_outfile_open := false, m_outfile_good := false,
                      m_filename := filename }
  let content := fs filename
  let file_did_not_exist := content.isNone
  if file_did_not_exist ∧ read_only then (false, { st with m_filename := "" })
  else
    let st := NNCache.resize st st.m_size true
    match content with
    | some bytes =>
      if bytes.take 4 = MAGIC_BYTES then
        let st := { st with m_outfile_map := scanLoop bytes (bytes.length + 1) 4 [] }
        loadFinish st bytes.length read_only false
      else
        (false, st)  -- wrong magic: return false; m_filename is NOT cleared here
    | none => loadFinish st 0 read_only true

/-! ### Concrete states and inputs used by the theorems -/

/-- A memory-only cache state: nothing stored, no file tier, memory
capacity `m` (the state of a fresh cache sized to `m` on which
`load_cachefile` was never called). -/
def memOnlyState (m : Nat) : CacheState :=
  { m_cache := [], m_order := [], m_outfile := [], m_outfile_pos := 0,
    m_outfile_open := false, m_outfile_good := false, m_outfile_map := [],
    m_filename := "", m_size := m, m_max_cache_size := m,
    m_max_outfile_map_size := 0, m_hits := 0, m_file_hits := 0,
    m_lookups := 0, m_inserts := 0 }

/-- The state after `resize(6000)` followed by `load_cachefile` on a fresh
(non-existent) file in write mode: file tier open and healthy, an open-time
guard written, `m_max_cache_size = 6000` and — because the whole budget went
to the memory tier — `m_max_outfile_map_size = 0`. -/
def initSmall : CacheState :=
  (NNCache.load_cachefile (memOnlyState 6000) (fun _ => none) "nncache.bin" false).2

/-- The all-zero network result (policy all zeros, scalars zero). -/
def rZero : Netresult := ⟨List.replicate 361 0, 0, 0⟩

/-- A policy whose encoding is exactly 2033 bits = 255 bytes: 106 entries of
quantum 1120 (19 code bits each), one of quantum 1 (3 bits), then 254 zeros
(16 bits). -/
def rStar : Netresult :=
  ⟨List.replicate 106 (1120 / 2048 : ℚ) ++ [(1 / 2048 : ℚ)] ++ List.replicate 254 0, 5, 7⟩

/-- A policy whose encoding exceeds 255 bytes: 361 entries of quantum 1120
(19 code bits each, 6859 bits = 858 bytes). -/
def rBig : Netresult := ⟨List.replicate 361 (1120 / 2048 : ℚ), 0, 0⟩

/-- `(ce.compressed_policy.size() + 7) / 8`, the compressed byte size the
file gate tests (src/NNCache.cpp, lines 227-233). -/
def compressedSizeBytes (r : Netresult) : Nat :=
  ((CompressedEntry.ofNetresult r).compressed_policy.size + 7) / 8

/-- Neither the file index nor the appended log mentions the reserved
fingerprint. -/
def SentinelFree (st : CacheState) : Prop :=
  (∀ p ∈ st.m_outfile_map, p.1 ≠ SENTINEL_HASH) ∧
  (∀ it ∈ st.m_outfile, recHash it ≠ some SENTINEL_HASH)

/-- `n` inserts of the all-zero result under the distinct fingerprints
`0, 1, ..., n-1`. -/
def runInserts (st : CacheState) (n : Nat) : CacheState :=
  (List.range n).foldl (fun s i => NNCache.insert s i rZero) st

/-! ## Distributed client response handling (src/DistributedNetwork.cpp)

`get_output_from_socket` reads `NUM_INTERSECTIONS + 2` float32 values from
the socket.  On the success path of `get_output_internal` (lines 226-238)
the code allocates `std::vector<float> p(NUM_INTERSECTIONS + 1)`
(zero-initialised), copies only the first `NUM_INTERSECTIONS` response
floats into it, and returns `output_data_f[NUM_INTERSECTIONS + 1]` as the
scalar.  Floats are bit patterns here (the code only copies them). -/

def get_output_internal_receive (N : Nat) (output_data_f : List Nat) :
    List Nat × Nat :=
  ((output_data_f.take N) ++ (List.replicate (N + 1) 0).drop N,
   output_data_f.getD (N + 1) 0)

/-- Total bit width of the code for a quantized policy. -/
def encWidth (Q : List Nat) : Nat := (symsBits (encSymsQ Q)).length

/-- A sequence of inserts with per-fingerprint results. -/
def runList (st : CacheState) (hs : List Nat) (res : Nat → Netresult) : CacheState :=
  hs.foldl (fun s h => NNCache.insert s h (res h)) st

/-- Bit `i` of a raw word array (bit `i % 64` of word `i / 64`). -/
def wordBit (words : List Nat) (i : Nat) : Bool :=
  (words.getD (i / 64) 0).testBit (i % 64)

/-- All capacity bits of a stream (bits beyond the bit count are the zero
fill of the words). -/
def capBits (st : bitstream) : List Bool :=
  (List.range (64 * st.words.length)).map (fun i => wordBit st.words i)

/-- A policy whose last entry has quantum 64 (`p[360] = 64/2048`, all other
entries zero): its encoding ends in a `V0 X0` pair whose X modifier the
decoder never reads. -/
def rBad : Netresult := ⟨List.replicate 360 0 ++ [(64 / 2048 : ℚ)], 0, 0⟩

/-- A file system holding, under every name, a 64-byte file that does not
start with the magic bytes. -/
def badMagicFS : String → Option (List Nat) := fun _ => some (List.replicate 64 0)

/-! ## Theorems.  First, bit-list arithmetic. -/

theorem bitsVal_append (a b : List Bool) :
    bitsVal (a ++ b) = bitsVal a + 2 ^ a.length * bitsVal b := by
  induction a with
  | nil => simp [bitsVal]
  | cons x l ih => simp [bitsVal, ih, pow_succ]; ring

theorem bitsVal_lt (l : List Bool) : bitsVal l < 2 ^ l.length := by
  induction l with
  | nil => simp [bitsVal]
  | cons x l ih => cases x <;> simp [bitsVal, pow_succ] <;> omega

theorem natBits_length (w v : Nat) : (natBits w v).length = w := by
  simp [natBits]

theorem natBits_succ (w v : Nat) :
    natBits (w + 1) v = v.testBit 0 :: natBits w (v / 2) := by
  simp only [natBits, List.range_succ_eq_map, List.map_cons, List.map_map]
  congr 1
  apply List.map_congr_left
  intro i _
  simp [Nat.testBit_add_one]

theorem bitsVal_natBits (w v : Nat) : bitsVal (natBits w v) = v % 2 ^ w := by
  induction w generalizing v with
  | zero => simp [natBits, bitsVal, Nat.mod_one]
  | succ w ih =>
    rw [natBits_succ]
    simp only [bitsVal, ih]
    rw [pow_succ, Nat.mul_comm (2 ^ w) 2, Nat.mod_mul]
    have hcond : (cond (v.testBit 0) 1 0 : Nat) = v % 2 := by
      rcases Nat.mod_two_eq_zero_or_one v with h | h <;>
        simp [Nat.testBit_zero, h]
    omega

theorem natBits_getD (w v i : Nat) (h : i < w) :
    (natBits w v).getD i false = v.testBit i := by
  simp [natBits, List.getD_eq_getElem?_getD, List.getElem?_map, List.getElem?_range, h]

theorem map_range_getD (l : List Bool) :
    (List.range l.length).map (fun i => l.getD i false) = l := by
  induction l with
  | nil => simp
  | cons x t ih =>
    rw [List.length_cons, List.range_succ_eq_map, List.map_cons, List.map_map]
    have h2 : ((fun i => (x :: t).getD i false) ∘ Nat.succ) = (fun i => t.getD i false) := by
      funext i
      simp
    rw [h2, ih]
    simp

theorem bitValueL_split (B : List Bool) (s a b : Nat) :
    bitValueL B s (a + b) = bitValueL B s a + 2 ^ a * bitValueL B (s + a) b := by
  unfold bitValueL
  rw [List.range_add, List.map_append, bitsVal_append, List.map_map]
  simp only [List.length_map, List.length_range]
  congr 2
  exact congrArg bitsVal (List.map_congr_left
    (fun i _ => by simp only [Function.comp_apply, Nat.add_assoc]))

theorem bitValueL_lt (B : List Bool) (s cnt : Nat) : bitValueL B s cnt < 2 ^ cnt := by
  have h := bitsVal_lt ((List.range cnt).map (fun i => B.getD (s + i) false))
  simpa [bitValueL] using h

theorem bitValueL_front (P tail : List Bool) :
    bitValueL (P ++ tail) 0 P.length = bitsVal P := by
  unfold bitValueL
  rw [show ((List.range P.length).map (fun i => (P ++ tail).getD (0 + i) false)) =
      (List.range P.length).map (fun i => P.getD i false) by
    apply List.map_congr_left
    intro i hi
    rw [List.mem_range] at hi
    rw [Nat.zero_add, List.getD_append _ _ _ _ hi]]
  rw [map_range_getD]

theorem bitValueL_shift (pre B : List Bool) (k cnt : Nat) :
    bitValueL (pre ++ B) (pre.length + k) cnt = bitValueL B k cnt := by
  unfold bitValueL
  congr 1
  apply List.map_congr_left
  intro i _
  rw [show pre.length + k + i = pre.length + (k + i) by omega]
  rw [List.getD_append_right _ _ _ _ (by omega)]
  congr 1
  omega

theorem testBit_add_shift (a b k i : Nat) (ha : a < 2 ^ k) :
    (a + 2 ^ k * b).testBit i = if i < k then a.testBit i else b.testBit (i - k) := by
  rcases Nat.lt_or_ge i k with h | h
  · rw [if_pos h]
    rw [Nat.testBit_to_div_mod, Nat.testBit_to_div_mod]
    have hk : (2 : Nat) ^ k = 2 ^ i * 2 ^ (k - i) := by
      rw [← pow_add]; congr 1; omega
    rw [hk, Nat.mul_assoc, Nat.add_mul_div_left _ _ (Nat.pos_pow_of_pos i (by omega))]
    have h2 : (2 : Nat) ^ (k - i) = 2 * 2 ^ (k - i - 1) := by
      rw [← pow_succ']; congr 1; omega
    rw [h2, Nat.mul_assoc, Nat.add_mul_mod_self_left]
  · rw [if_neg (by omega)]
    have hk : (2 : Nat) ^ i = 2 ^ k * 2 ^ (i - k) := by
      rw [← pow_add]; congr 1; omega
    have h1 : (a + 2 ^ k * b) / 2 ^ k = b := by
      rw [Nat.add_mul_div_left _ _ (Nat.pos_pow_of_pos k (by omega)),
        Nat.div_eq_of_lt ha, Nat.zero_add]
    rw [Nat.testBit_to_div_mod, Nat.testBit_to_div_mod, hk,
      ← Nat.div_div_eq_div_mul, h1]

theorem or_shiftLeft_eq_add (a b k : Nat) (ha : a < 2 ^ k) :
    (b <<< k) ||| a = a + 2 ^ k * b := by
  apply Nat.eq_of_testBit_eq
  intro i
  rw [Nat.testBit_or, Nat.testBit_shiftLeft, testBit_add_shift a b k i ha]
  rcases Nat.lt_or_ge i k with h | h
  · rw [if_pos h]
    have : ¬ (k ≤ i) := by omega
    simp [this]
  · rw [if_neg (by omega)]
    have hfa : a.testBit i = false := Nat.testBit_lt_two_pow (lt_of_lt_of_le ha (Nat.pow_le_pow_right (by omega) h))
    simp [h, hfa]

theorem getD_set_nat (l : List Nat) (n a m : Nat) :
    (l.set n a).getD m 0 = if n = m ∧ n < l.length then a else l.getD m 0 := by
  rw [List.getD_eq_getElem?_getD, List.getD_eq_getElem?_getD, List.getElem?_set]
  by_cases h : n = m
  · subst h
    by_cases hl : n < l.length
    · simp [hl]
    · simp [hl, List.getElem?_eq_none (by omega : l.length ≤ n)]
  · simp [h]

theorem getD_bound_of_mem (l : List Nat) (h : ∀ w ∈ l, w < 2 ^ 64) :
    ∀ j, l.getD j 0 < 2 ^ 64 := by
  intro j
  rcases Nat.lt_or_ge j l.length with hj | hj
  · rw [List.getD_eq_getElem?_getD, List.getElem?_eq_getElem hj]
    exact h _ (List.getElem_mem _)
  · rw [List.getD_eq_getElem?_getD, List.getElem?_eq_none (by omega)]
    simp [Nat.pos_pow_of_pos]

theorem expand_bitcount (st : bitstream) (c : Nat) :
    (st.expand c).bitcount = st.bitcount := by
  unfold bitstream.expand
  simp only
  split <;> rfl

theorem expand_capacity (st : bitstream) (c : Nat) :
    c ≤ 64 * (st.expand c).words.length ∧
    64 * st.words.length ≤ 64 * (st.expand c).words.length := by
  unfold bitstream.expand
  simp only
  split
  · next hc => omega
  · next hc =>
    simp only [List.length_append, List.length_replicate]
    omega

theorem expand_getD (st : bitstream) (c j : Nat) :
    (st.expand c).words.getD j 0 = st.words.getD j 0 := by
  unfold bitstream.expand
  simp only
  split
  · rfl
  · simp only
    rcases Nat.lt_or_ge j st.words.length with hj | hj
    · rw [List.getD_eq_getElem?_getD, List.getElem?_append_left hj,
        ← List.getD_eq_getElem?_getD]
    · rw [List.getD_eq_getElem?_getD, List.getElem?_append_right hj,
        List.getD_eq_getElem?_getD st.words, List.getElem?_eq_none hj]
      simp only [Option.getD_none]
      rw [List.getElem?_replicate]
      split <;> rfl

theorem expand_streamBit (st : bitstream) (c i : Nat) :
    (st.expand c).streamBit i = st.streamBit i := by
  unfold bitstream.streamBit
  rw [expand_getD]

theorem pushStep_spec (words : List Nat) (bitcount value b : Nat)
    (hb1 : 1 ≤ b) (hbo : b ≤ 64 - bitcount % 64)
    (hcap : bitcount + b ≤ 64 * words.length)
    (hbound : ∀ j, words.getD j 0 < 2 ^ 64)
    (hzero : ∀ i, bitcount ≤ i → wordBit words i = false) :
    (words.set (bitcount / 64)
        ((words.getD (bitcount / 64) 0 |||
          (value &&& ((1 <<< b) - 1)) <<< (bitcount % 64)) % 2 ^ 64)).length
      = words.length ∧
    (∀ j, (words.set (bitcount / 64)
        ((words.getD (bitcount / 64) 0 |||
          (value &&& ((1 <<< b) - 1)) <<< (bitcount % 64)) % 2 ^ 64)).getD j 0 < 2 ^ 64) ∧
    (∀ i, wordBit (words.set (bitcount / 64)
        ((words.getD (bitcount / 64) 0 |||
          (value &&& ((1 <<< b) - 1)) <<< (bitcount % 64)) % 2 ^ 64)) i =
      if i < bitcount then wordBit words i
      else if i < bitcount + b then value.testBit (i - bitcount)
      else false) := by
  have hoff : bitcount % 64 < 64 := Nat.mod_lt _ (by omega)
  have hidx : bitcount / 64 < words.length := by omega
  have hmask : value &&& ((1 <<< b) - 1) = value % 2 ^ b := by
    rw [Nat.one_shiftLeft, Nat.and_pow_two_sub_one_eq_mod]
  have hmlt : value % 2 ^ b < 2 ^ b := Nat.mod_lt _ (Nat.pos_pow_of_pos _ (by omega))
  have hshift : (value &&& ((1 <<< b) - 1)) <<< (bitcount % 64) < 2 ^ 64 := by
    rw [hmask, Nat.shiftLeft_eq]
    calc value % 2 ^ b * 2 ^ (bitcount % 64)
        < 2 ^ b * 2 ^ (bitcount % 64) :=
          (Nat.mul_lt_mul_right (Nat.pos_pow_of_pos _ (by omega))).mpr hmlt
      _ = 2 ^ (b + bitcount % 64) := by rw [pow_add]
      _ ≤ 2 ^ 64 := Nat.pow_le_pow_right (by omega) (by omega)
  have hnew : (words.getD (bitcount / 64) 0 |||
      (value &&& ((1 <<< b) - 1)) <<< (bitcount % 64)) < 2 ^ 64 :=
    Nat.or_lt_two_pow (hbound _) hshift
  have hmod : (words.getD (bitcount / 64) 0 |||
      (value &&& ((1 <<< b) - 1)) <<< (bitcount % 64)) % 2 ^ 64
      = words.getD (bitcount / 64) 0 |||
        (value &&& ((1 <<< b) - 1)) <<< (bitcount % 64) := Nat.mod_eq_of_lt hnew
  refine ⟨List.length_set _ _ _, ?_, ?_⟩
  · intro j
    rw [getD_set_nat]
    split
    · rw [hmod]; exact hnew
    · exact hbound j
  · intro i
    have hi64 : i % 64 < 64 := Nat.mod_lt _ (by omega)
    unfold wordBit
    rw [getD_set_nat]
    by_cases hw : bitcount / 64 = i / 64
    · rw [if_pos ⟨hw, hidx⟩, hmod, Nat.testBit_or, Nat.testBit_shiftLeft, hmask]
      by_cases h1 : i < bitcount
      · rw [if_pos h1]
        have hdec : (decide (bitcount % 64 ≤ i % 64)) = false :=
          decide_eq_false (by omega)
        rw [hdec]
        simp only [Bool.false_and, Bool.or_false]
        rw [hw]
      · rw [if_neg h1]
        have hzb : (words.getD (i / 64) 0).testBit (i % 64) = false := by
          have h3 := hzero i (by omega)
          unfold wordBit at h3
          exact h3
        rw [hw, hzb, Bool.false_or]
        by_cases h2 : i < bitcount + b
        · rw [if_pos h2]
          have hdec : (decide (bitcount % 64 ≤ i % 64)) = true :=
            decide_eq_true (by omega)
          have harg : i % 64 - bitcount % 64 = i - bitcount := by omega
          rw [hdec, harg]
          simp only [Bool.true_and]
          rw [Nat.testBit_mod_two_pow]
          have hlt : i - bitcount < b := by omega
          have hdec2 : (decide (i - bitcount < b)) = true := decide_eq_true hlt
          rw [hdec2]
          simp only [Bool.true_and]
        · rw [if_neg h2]
          by_cases hle : bitcount % 64 ≤ i % 64
          · have hdec : (decide (bitcount % 64 ≤ i % 64)) = true := decide_eq_true hle
            rw [hdec]
            simp only [Bool.true_and]
            apply Nat.testBit_lt_two_pow
            calc value % 2 ^ b < 2 ^ b := hmlt
              _ ≤ 2 ^ (i % 64 - bitcount % 64) :=
                Nat.pow_le_pow_right (by omega) (by omega)
          · have hdec : (decide (bitcount % 64 ≤ i % 64)) = false := decide_eq_false hle
            rw [hdec]
            simp only [Bool.false_and]
    · rw [if_neg (fun hcon => hw hcon.1)]
      by_cases h1 : i < bitcount
      · rw [if_pos h1]
      · rw [if_neg h1]
        have h2 : ¬ (i < bitcount + b) := by omega
        rw [if_neg h2]
        exact hzero i (by omega)

theorem pushLoop_spec : ∀ count words bitcount value,
    bitcount + count ≤ 64 * words.length →
    (∀ j, words.getD j 0 < 2 ^ 64) →
    (∀ i, bitcount ≤ i → wordBit words i = false) →
    (bitstream.pushLoop words bitcount count value).2 = bitcount + count ∧
    (bitstream.pushLoop words bitcount count value).1.length = words.length ∧
    (∀ j, (bitstream.pushLoop words bitcount count value).1.getD j 0 < 2 ^ 64) ∧
    (∀ i, wordBit (bitstream.pushLoop words bitcount count value).1 i =
      if i < bitcount then wordBit words i
      else if i < bitcount + count then value.testBit (i - bitcount)
      else false) := by
  intro count
  induction count using Nat.strong_induction_on with
  | _ count ih =>
    intro words bitcount value hcap hbound hzero
    by_cases hc : count = 0
    · subst hc
      rw [bitstream.pushLoop, if_pos rfl]
      refine ⟨rfl, rfl, hbound, ?_⟩
      intro i
      split
      · rfl
      · next h1 =>
        split
        · omega
        · exact hzero i (by omega)
    · rw [bitstream.pushLoop, if_neg hc]
      dsimp only
      have hoff : bitcount % 64 < 64 := Nat.mod_lt _ (by omega)
      set b := min (64 - bitcount % 64) count with hbdef
      have hb1 : 1 ≤ b := by omega
      have hbo : b ≤ 64 - bitcount % 64 := by omega
      have hstep := pushStep_spec words bitcount value b hb1 hbo (by omega) hbound hzero
      obtain ⟨hlen, hbound', hbits⟩ := hstep
      have hzero' : ∀ i, bitcount + b ≤ i →
          wordBit (words.set (bitcount / 64)
            ((words.getD (bitcount / 64) 0 |||
              (value &&& ((1 <<< b) - 1)) <<< (bitcount % 64)) % 2 ^ 64)) i = false := by
        intro i hi
        rw [hbits i, if_neg (by omega), if_neg (by omega)]
      have hrec := ih (count - b) (by omega) _ (bitcount + b) (value >>> b)
        (by rw [hlen]; omega) hbound' hzero'
      obtain ⟨h1, h2, h3, h4⟩ := hrec
      refine ⟨by rw [h1]; omega, by rw [h2, hlen], h3, ?_⟩
      intro i
      rw [h4 i, hbits i]
      by_cases hi1 : i < bitcount
      · simp only [if_pos hi1, if_pos (show i < bitcount + b by omega)]
      · by_cases hi2 : i < bitcount + b
        · simp only [if_pos hi2, if_neg hi1,
            if_pos (show i < bitcount + count by omega)]
        · simp only [if_neg hi2, if_neg hi1]
          by_cases hi3 : i < bitcount + count
          · simp only [if_pos (show i < bitcount + b + (count - b) by omega),
              if_pos hi3, Nat.testBit_shiftRight]
            congr 1
            omega
          · simp only [if_neg (show ¬ i < bitcount + b + (count - b) by omega),
              if_neg hi3]

theorem bound_mem_of_getD (l : List Nat) (h : ∀ j, l.getD j 0 < 2 ^ 64) :
    ∀ w ∈ l, w < 2 ^ 64 := by
  intro w hw
  obtain ⟨j, hj, hg⟩ := List.getElem_of_mem hw
  have h2 := h j
  rw [List.getD_eq_getElem?_getD, List.getElem?_eq_getElem hj] at h2
  simpa [hg] using h2

theorem wf_clear : bitstream.clear.wf := by
  refine ⟨by simp [bitstream.clear], by simp [bitstream.clear], ?_⟩
  intro i _
  simp [bitstream.clear, bitstream.streamBit]

theorem push_bits_spec (st : bitstream) (hwf : st.wf) (count value : Nat) :
    (st.push_bits count value).wf ∧
    (st.push_bits count value).bitcount = st.bitcount + count ∧
    (∀ i, (st.push_bits count value).streamBit i =
      if i < st.bitcount then st.streamBit i
      else if i < st.bitcount + count then value.testBit (i - st.bitcount)
      else false) := by
  obtain ⟨hbound, hcap, hzero⟩ := hwf
  have hboundD := getD_bound_of_mem _ hbound
  unfold bitstream.push_bits
  set st1 := if st.bitcount + count > 64 * st.words.length
             then st.expand (st.bitcount + count * 2) else st with hst1
  have h1bc : st1.bitcount = st.bitcount := by
    rw [hst1]; split
    · exact expand_bitcount _ _
    · rfl
  have h1getD : ∀ j, st1.words.getD j 0 = st.words.getD j 0 := by
    intro j
    rw [hst1]; split
    · exact expand_getD _ _ _
    · rfl
  have h1bit : ∀ i, st1.streamBit i = st.streamBit i := by
    intro i
    rw [hst1]; split
    · exact expand_streamBit _ _ _
    · rfl
  have h1cap : st.bitcount + count ≤ 64 * st1.words.length := by
    rw [hst1]; split
    · next hgt =>
      have := (expand_capacity st (st.bitcount + count * 2)).1
      omega
    · next hgt => omega
  have hzero1 : ∀ i, st.bitcount ≤ i → wordBit st1.words i = false := by
    intro i hi
    have := h1bit i
    unfold bitstream.streamBit at this
    unfold wordBit
    rw [this]
    exact hzero i hi
  dsimp only
  rw [h1bc]
  obtain ⟨hs1, hs2, hs3, hs4⟩ := pushLoop_spec count st1.words st.bitcount value
    h1cap (fun j => by rw [h1getD]; exact hboundD j) hzero1
  refine ⟨⟨bound_mem_of_getD _ hs3, ?_, ?_⟩, ?_, ?_⟩
  · show (bitstream.pushLoop st1.words st.bitcount count value).2 ≤ _
    rw [hs1, hs2]
    omega
  · intro i hi
    show wordBit _ i = false
    have hi2 : st.bitcount + count ≤ i := by
      rw [← hs1]
      exact hi
    rw [hs4 i, if_neg (by omega), if_neg (by omega)]
  · exact hs1
  · intro i
    show wordBit _ i = _
    rw [hs4 i]
    by_cases hi1 : i < st.bitcount
    · rw [if_pos hi1, if_pos hi1]
      show wordBit st1.words i = st.streamBit i
      rw [← h1bit i]
      rfl
    · rw [if_neg hi1, if_neg hi1]

theorem toBits_length (st : bitstream) : st.toBits.length = st.bitcount := by
  simp [bitstream.toBits]

theorem push_bits_toBits (st : bitstream) (hwf : st.wf) (count value : Nat) :
    (st.push_bits count value).toBits = st.toBits ++ natBits count value := by
  obtain ⟨hwf', hbc, hbit⟩ := push_bits_spec st hwf count value
  unfold bitstream.toBits natBits
  rw [hbc, List.range_add, List.map_append, List.map_map]
  congr 1
  · apply List.map_congr_left
    intro i hi
    rw [List.mem_range] at hi
    rw [hbit i, if_pos hi]
  · apply List.map_congr_left
    intro i hi
    rw [List.mem_range] at hi
    simp only [Function.comp_apply]
    rw [hbit _, if_neg (by omega), if_pos (by omega)]
    congr 1
    omega

theorem bitsVal_eq_zero (l : List Bool) (h : ∀ b ∈ l, b = false) : bitsVal l = 0 := by
  induction l with
  | nil => rfl
  | cons x t ih =>
    have hx := h x (by simp)
    subst hx
    simp [bitsVal, ih (fun b hb => h b (by simp [hb]))]

theorem getD_capBits (st : bitstream) (j : Nat) :
    (capBits st).getD j false = wordBit st.words j := by
  unfold capBits
  rcases Nat.lt_or_ge j (64 * st.words.length) with hj | hj
  · rw [List.getD_eq_getElem?_getD, List.getElem?_map, List.getElem?_range hj]
    rfl
  · rw [List.getD_eq_getElem?_getD, List.getElem?_eq_none (by simpa using hj)]
    unfold wordBit
    have : st.words.getD (j / 64) 0 = 0 := by
      rw [List.getD_eq_getElem?_getD, List.getElem?_eq_none (by omega)]
      rfl
    rw [this]
    simp [Nat.zero_testBit]

theorem bitValueL_congr (B C : List Bool) (s t cnt : Nat)
    (h : ∀ i, i < cnt → B.getD (s + i) false = C.getD (t + i) false) :
    bitValueL B s cnt = bitValueL C t cnt := by
  unfold bitValueL
  congr 1
  apply List.map_congr_left
  intro i hi
  exact h i (List.mem_range.mp hi)

theorem read_bits_spec (st : bitstream) (hbound : ∀ j, st.words.getD j 0 < 2 ^ 64) :
    ∀ cnt start, cnt ≤ 64 →
    st.read_bits start cnt = bitValueL (capBits st) start cnt := by
  intro cnt
  induction cnt using Nat.strong_induction_on with
  | _ cnt ih =>
    intro start hcnt
    rw [bitstream.read_bits]
    split
    · next hge =>
      symm
      apply bitsVal_eq_zero
      intro b hb
      rw [List.mem_map] at hb
      obtain ⟨i, _, rfl⟩ := hb
      rw [getD_capBits]
      unfold wordBit
      have : st.words.getD ((start + i) / 64) 0 = 0 := by
        rw [List.getD_eq_getElem?_getD, List.getElem?_eq_none (by omega)]
        rfl
      rw [this]
      simp [Nat.zero_testBit]
    · next hlt =>
      have hstart : start < 64 * st.words.length := by omega
      have hoff : start % 64 < 64 := Nat.mod_lt _ (by omega)
      have hword : 64 * (start / 64) + start % 64 = start := by
        have := Nat.div_add_mod start 64
        omega
      split
      · next hbig =>
        -- straddling read
        have hoffpos : 1 ≤ 64 - start % 64 := by omega
        have hrec := ih (cnt - (64 - start % 64)) (by omega)
          (start + (64 - start % 64)) (by omega)
        rw [hrec]
        have hlow : st.words.getD (start / 64) 0 >>> (start % 64)
            < 2 ^ (64 - start % 64) := by
          rw [Nat.shiftRight_eq_div_pow]
          apply Nat.div_lt_of_lt_mul
          calc st.words.getD (start / 64) 0 < 2 ^ 64 := hbound _
            _ = 2 ^ (start % 64) * 2 ^ (64 - start % 64) := by
              rw [← pow_add]; congr 1; omega
        rw [or_shiftLeft_eq_add _ _ _ hlow]
        have hsplit : bitValueL (capBits st) start cnt
            = bitValueL (capBits st) start (64 - start % 64)
              + 2 ^ (64 - start % 64)
                * bitValueL (capBits st) (start + (64 - start % 64))
                  (cnt - (64 - start % 64)) := by
          rw [← bitValueL_split]
          congr 1
          omega
        rw [hsplit]
        congr 1
        -- the low 64 - off bits come from the current word
        have hv : st.words.getD (start / 64) 0 >>> (start % 64)
            = bitsVal (natBits (64 - start % 64)
                (st.words.getD (start / 64) 0 >>> (start % 64))) := by
          rw [bitsVal_natBits, Nat.mod_eq_of_lt hlow]
        rw [hv]
        unfold bitValueL natBits
        congr 1
        apply List.map_congr_left
        intro i hi
        rw [List.mem_range] at hi
        rw [getD_capBits]
        unfold wordBit
        rw [Nat.testBit_shiftRight]
        have h1 : (start + i) / 64 = start / 64 := by omega
        have h2 : (start + i) % 64 = start % 64 + i := by omega
        rw [h1, h2]
      · next hsmall =>
        -- read within one word
        rw [Nat.one_shiftLeft, Nat.and_pow_two_sub_one_eq_mod]
        have hv : (st.words.getD (start / 64) 0 >>> (start % 64)) % 2 ^ cnt
            = bitsVal (natBits cnt
                (st.words.getD (start / 64) 0 >>> (start % 64))) := by
          rw [bitsVal_natBits]
        rw [hv]
        unfold bitValueL natBits
        congr 1
        apply List.map_congr_left
        intro i hi
        rw [List.mem_range] at hi
        rw [getD_capBits]
        unfold wordBit
        rw [Nat.testBit_shiftRight]
        have h1 : (start + i) / 64 = start / 64 := by omega
        have h2 : (start + i) % 64 = start % 64 + i := by omega
        rw [h1, h2]

theorem getD_toBits (st : bitstream) (hwf : st.wf) (j : Nat) :
    st.toBits.getD j false = wordBit st.words j := by
  unfold bitstream.toBits
  rcases Nat.lt_or_ge j st.bitcount with hj | hj
  · rw [List.getD_eq_getElem?_getD, List.getElem?_map, List.getElem?_range hj]
    rfl
  · rw [List.getD_eq_getElem?_getD, List.getElem?_eq_none (by simpa using hj)]
    have := hwf.2.2 j hj
    unfold bitstream.streamBit at this
    rw [← this]
    rfl

theorem read_bits_toBits (st : bitstream) (hwf : st.wf) (start cnt : Nat)
    (hcnt : cnt ≤ 64) :
    st.read_bits start cnt = bitValueL st.toBits start cnt := by
  rw [read_bits_spec st (getD_bound_of_mem _ hwf.1) cnt start hcnt]
  apply bitValueL_congr
  intro i _
  rw [getD_capBits, getD_toBits st hwf]

/-- C9: pushing `push_bits(w, v)` onto a bitstream of size `s` and reading
`read_bits(s, w)` returns `v & ((1 << w) - 1)`; `size()` after the push is
`s + w`; bits pushed earlier read back unchanged (so consecutive pushes are
read as consecutive slices); and well-formedness is preserved. -/
theorem bitstream_push_read_laws (st : bitstream) (hwf : st.wf) (w v : Nat)
    (hw : w ≤ 64) :
    (st.push_bits w v).read_bits st.size w = v &&& ((1 <<< w) - 1) ∧
    (st.push_bits w v).size = st.size + w ∧
    (∀ s cnt, s + cnt ≤ st.size → cnt ≤ 64 →
      (st.push_bits w v).read_bits s cnt = st.read_bits s cnt) ∧
    (st.push_bits w v).wf := by
  obtain ⟨hwf', _, _⟩ := push_bits_spec st hwf w v
  have htb := push_bits_toBits st hwf w v
  refine ⟨?_, ?_, ?_, hwf'⟩
  · rw [read_bits_toBits _ hwf' _ _ hw, htb]
    have hlen : st.size = st.toBits.length + 0 := by
      rw [toBits_length]
      rfl
    rw [hlen, bitValueL_shift]
    have hnb : natBits w v = natBits w v ++ [] := by simp
    rw [show bitValueL (natBits w v) 0 w
          = bitValueL (natBits w v ++ []) 0 (natBits w v).length by
        rw [← hnb, natBits_length]]
    rw [bitValueL_front, bitsVal_natBits, Nat.one_shiftLeft,
      Nat.and_pow_two_sub_one_eq_mod]
  · rw [show (st.push_bits w v).size = (st.push_bits w v).bitcount from rfl,
      (push_bits_spec st hwf w v).2.1]
    rfl
  · intro s cnt hs hcnt
    rw [read_bits_toBits _ hwf' _ _ hcnt, read_bits_toBits _ hwf _ _ hcnt, htb]
    apply bitValueL_congr
    intro i hi
    have hslt : s + i < st.toBits.length := by
      rw [toBits_length]
      show s + i < st.bitcount
      have : st.size = st.bitcount := rfl
      omega
    rw [List.getD_eq_getElem?_getD, List.getElem?_append_left hslt,
      ← List.getD_eq_getElem?_getD]

/-- Witness for C9 at a concrete input: the empty stream, `w = 5`,
`v = 100`. -/
theorem bitstream_push_read_laws_witness :
    bitstream.clear.wf ∧ (5 : Nat) ≤ 64 ∧
    ((bitstream.clear.push_bits 5 100).read_bits bitstream.clear.size 5
        = 100 &&& ((1 <<< 5) - 1) ∧
      (bitstream.clear.push_bits 5 100).size = bitstream.clear.size + 5 ∧
      (∀ s cnt, s + cnt ≤ bitstream.clear.size → cnt ≤ 64 →
        (bitstream.clear.push_bits 5 100).read_bits s cnt
          = bitstream.clear.read_bits s cnt) ∧
      (bitstream.clear.push_bits 5 100).wf) :=
  ⟨wf_clear, by omega, bitstream_push_read_laws bitstream.clear wf_clear 5 100 (by omega)⟩

theorem testGetLoop_eq_getLoop :
    ∀ k N (cp : bitstream) iptr optr (prev : Int) (acc : List ℚ),
      2 * (N - optr) + (if prev = (0 : Int) then 1 else 0) ≤ k →
      testGetLoop N cp iptr optr prev
        = Except.map Prod.snd (getLoop N cp iptr optr prev acc) := by
  intro k
  induction k using Nat.strong_induction_on with
  | _ k ih =>
    intro N cp iptr optr prev acc hk
    have hZ : Z_BASE = 64 := rfl
    have hX : X_BASE = 80 := rfl
    have e0 : (if (0 : Int) = 0 then (1 : Nat) else 0) = 1 := by norm_num
    have e1 : (if (1 : Int) = 0 then (1 : Nat) else 0) = 0 := by norm_num
    have em1 : (if (-1 : Int) = 0 then (1 : Nat) else 0) = 0 := by norm_num
    have hkb : (if prev = (0 : Int) then (1 : Nat) else 0) ≤ 1 := by
      split <;> omega
    rw [testGetLoop, getLoop]
    by_cases h : optr < N
    · rw [dif_pos h, dif_pos h]
      dsimp only
      by_cases h1 : (readSymbolStep cp iptr).1 < Z_BASE
      · rw [if_pos h1, if_pos h1]
        apply ih (k - 1) (by omega) _ _ _ _ _ _
        rw [e0]
        omega
      · rw [if_neg h1, if_neg h1]
        by_cases h2 : (readSymbolStep cp iptr).1 < X_BASE
        · rw [if_pos h2, if_pos h2]
          by_cases h3 : optr + ((readSymbolStep cp iptr).1 - Z_BASE + 2) > N
          · rw [if_pos h3, if_pos h3]
            rfl
          · rw [if_neg h3, if_neg h3]
            apply ih (k - 1) (by omega) _ _ _ _ _ _
            rw [e1]
            omega
        · rw [if_neg h2, if_neg h2]
          by_cases h4 : prev = 0
          · rw [dif_pos h4, dif_pos h4]
            apply ih (k - 1) (by rw [if_pos h4] at hk; omega) _ _ _ _ _ _
            rw [em1]
            rw [if_pos h4] at hk
            omega
          · rw [dif_neg h4, dif_neg h4]
            by_cases h5 : prev = 1
            · rw [if_pos h5, if_pos h5]
              by_cases h6 : optr + ((readSymbolStep cp iptr).1 - X_BASE + 1) * 16 > N
              · rw [if_pos h6, if_pos h6]
                rfl
              · rw [if_neg h6, if_neg h6]
                apply ih (k - 1) (by omega) _ _ _ _ _ _
                rw [em1]
                have hb : 1 ≤ (readSymbolStep cp iptr).1 - X_BASE + 1 := by omega
                omega
            · rw [if_neg h5, if_neg h5]
              rfl
    · rw [dif_neg h, dif_neg h]
      rfl

/-- C10: the record validator `test_get` and the decoder `get` agree: one
throws exactly when the other does (with the same message), and on success
both consume the same number of bits — the loops return the same final
cursor, and the wrappers apply the identical final size check. -/
theorem test_get_get_equivalence :
    (∀ e : CompressedEntry, e.test_get = Except.map (fun _ => ()) e.get) ∧
    (∀ N (cp : bitstream) iptr optr (prev : Int) (acc : List ℚ),
      testGetLoop N cp iptr optr prev
        = Except.map Prod.snd (getLoop N cp iptr optr prev acc)) := by
  have hloops : ∀ N (cp : bitstream) iptr optr (prev : Int) (acc : List ℚ),
      testGetLoop N cp iptr optr prev
        = Except.map Prod.snd (getLoop N cp iptr optr prev acc) := by
    intro N cp iptr optr prev acc
    exact testGetLoop_eq_getLoop (2 * (N - optr) + 1) N cp iptr optr prev acc
      (by split <;> omega)
  refine ⟨?_, hloops⟩
  intro e
  unfold CompressedEntry.test_get CompressedEntry.get
  rw [hloops NUM_INTERSECTIONS e.compressed_policy 0 0 (-1) []]
  cases hg : getLoop NUM_INTERSECTIONS e.compressed_policy 0 0 (-1) [] with
  | error msg => rfl
  | ok p =>
    obtain ⟨pol, iptr⟩ := p
    show (match Except.map Prod.snd (Except.ok (pol, iptr)) with
      | .error msg => Except.error msg
      | .ok iptr =>
        if sizeCheckFails iptr e.compressed_policy.size
        then Except.error "Unexpected size" else Except.ok ()) = _
    simp only [Except.map]
    split
    · rfl
    · rfl

/-! ### Symbol-level facts about the prefix code (finite checks) -/

set_option maxRecDepth 10000 in
theorem symbol_table_facts : ∀ s, s < 112 →
    (findEntry encode_table 0 s).isSome = true ∧
    symVal s < 2 ^ symWidth s ∧ 3 ≤ symWidth s ∧ symWidth s ≤ 10 := by decide

set_option maxHeartbeats 4000000 in
set_option maxRecDepth 1000000 in
theorem scan_decodes_symbol : ∀ s, s < 112 → ∀ hi, hi < 2 ^ (10 - symWidth s) →
    scanGo encode_table 0 (symVal s + 2 ^ symWidth s * hi)
      = some (s, symWidth s) := by decide

set_option maxRecDepth 10000 in
theorem symWidth_ranges :
    (∀ s, s < 64 → 3 ≤ symWidth s ∧ symWidth s ≤ 9) ∧
    (∀ s, 64 ≤ s → s < 80 → 4 ≤ symWidth s ∧ symWidth s ≤ 7) ∧
    (∀ s, 80 ≤ s → s < 112 → 4 ≤ symWidth s ∧ symWidth s ≤ 10) := by
  refine ⟨by decide, ?_, ?_⟩
  · intro s h1 h2
    have : ∀ t, t < 16 → 4 ≤ symWidth (64 + t) ∧ symWidth (64 + t) ≤ 7 := by decide
    have h3 := this (s - 64) (by omega)
    rw [show 64 + (s - 64) = s by omega] at h3
    exact h3
  · intro s h1 h2
    have : ∀ t, t < 32 → 4 ≤ symWidth (80 + t) ∧ symWidth (80 + t) ≤ 10 := by decide
    have h3 := this (s - 80) (by omega)
    rw [show 80 + (s - 80) = s by omega] at h3
    exact h3

theorem symEnc_length (s : Nat) : (symEnc s).length = symWidth s := by
  unfold symEnc
  exact natBits_length _ _

theorem symsBits_cons (s : Nat) (l : List Nat) :
    symsBits (s :: l) = symEnc s ++ symsBits l := by
  unfold symsBits
  simp

theorem symsBits_append (a b : List Nat) :
    symsBits (a ++ b) = symsBits a ++ symsBits b := by
  unfold symsBits
  simp

theorem symsBits_nil : symsBits [] = [] := rfl

theorem push_symbol_eq (cp : bitstream) (s : Nat) (hs : s < 112) :
    push_symbol cp s = cp.push_bits (symWidth s) (symVal s) := by
  unfold push_symbol symWidth symVal
  cases hfe : findEntry encode_table 0 s with
  | none =>
    have := (symbol_table_facts s hs).1
    rw [hfe] at this
    simp at this
  | some eb => rfl

theorem push_symbol_toBits (cp : bitstream) (hwf : cp.wf) (s : Nat) (hs : s < 112) :
    (push_symbol cp s).toBits = cp.toBits ++ symEnc s ∧ (push_symbol cp s).wf := by
  rw [push_symbol_eq cp s hs]
  exact ⟨push_bits_toBits cp hwf _ _, (push_bits_spec cp hwf _ _).1⟩

theorem readSymbolStepB_at (pre tail : List Bool) (s : Nat) (hs : s < 112) :
    readSymbolStepB (pre ++ (symEnc s ++ tail)) pre.length
      = (s, pre.length + symWidth s) := by
  have hw10 : symWidth s ≤ 10 := (symbol_table_facts s hs).2.2.2
  have hlow : bitValueL (pre ++ (symEnc s ++ tail)) pre.length (symWidth s)
      = symVal s := by
    have h0 : pre.length = pre.length + 0 := rfl
    rw [h0, bitValueL_shift]
    rw [show bitValueL (symEnc s ++ tail) 0 (symWidth s)
        = bitValueL (symEnc s ++ tail) 0 (symEnc s).length by rw [symEnc_length]]
    rw [bitValueL_front]
    unfold symEnc
    rw [bitsVal_natBits, Nat.mod_eq_of_lt (symbol_table_facts s hs).2.1]
  have hsplit : bitValueL (pre ++ (symEnc s ++ tail)) pre.length 10
      = symVal s + 2 ^ symWidth s
        * bitValueL (pre ++ (symEnc s ++ tail)) (pre.length + symWidth s)
          (10 - symWidth s) := by
    conv_lhs => rw [show (10 : Nat) = symWidth s + (10 - symWidth s) by omega]
    rw [bitValueL_split, hlow]
  unfold readSymbolStepB
  rw [hsplit, scan_decodes_symbol s hs _ (bitValueL_lt _ _ _)]

theorem zeroRunQ_le (l : List Nat) : zeroRunQ l ≤ l.length := by
  induction l with
  | nil => simp [zeroRunQ]
  | cons q rest ih =>
    rw [zeroRunQ]
    split <;> simp
    omega

theorem zeroRunQ_take (l : List Nat) :
    l.take (zeroRunQ l) = List.replicate (zeroRunQ l) 0 := by
  induction l with
  | nil => simp [zeroRunQ]
  | cons q rest ih =>
    rw [zeroRunQ]
    split
    · next hq =>
      subst hq
      rw [show 1 + zeroRunQ rest = zeroRunQ rest + 1 by omega]
      rw [List.take_succ_cons, List.replicate_succ, ih]
    · simp

theorem zeroRun_eq_zeroRunQ (l : List ℚ) : zeroRun l = zeroRunQ (l.map quant) := by
  induction l with
  | nil => rfl
  | cons p rest ih =>
    rw [List.map_cons, zeroRun, zeroRunQ, ih]

theorem encodeLoop_toBits : ∀ (n : Nat) (l : List ℚ) (cp : bitstream),
    l.length ≤ n →
    cp.wf → l.length ≤ 529 → (∀ p ∈ l, quant p ≤ 2048) →
    (encodeLoop l cp).toBits = cp.toBits ++ symsBits (encSymsQ (l.map quant)) ∧
    (encodeLoop l cp).wf := by
  intro n
  induction n with
  | zero =>
    intro l cp hn hwf _ _
    have : l = [] := List.length_eq_zero.mp (by omega)
    subst this
    simp [encodeLoop, encSymsQ, symsBits_nil]
    exact hwf
  | succ n ih =>
    intro l cp hn hwf h529 hq
    match l with
    | [] =>
      simp [encodeLoop, encSymsQ, symsBits_nil]
      exact hwf
    | p :: rest =>
      have hlc : (p :: rest).length = rest.length + 1 := rfl
      rw [encodeLoop, List.map_cons, encSymsQ]
      by_cases hz : quant p = 0
      · rw [if_pos hz, if_pos hz]
        rw [← zeroRun_eq_zeroRunQ]
        dsimp only
        set c := 1 + zeroRun rest with hc
        have hcle : c ≤ 1 + rest.length := by
          have := zeroRun_eq_zeroRunQ rest
          have := zeroRunQ_le (rest.map quant)
          simp only [List.length_map] at this
          omega
        by_cases hc1 : c = 1
        · rw [if_pos hc1, if_pos hc1]
          have hv : (V_BASE : Nat) < 112 := by norm_num [V_BASE]
          obtain ⟨htb, hwf2⟩ := push_symbol_toBits cp hwf V_BASE hv
          have hrec := ih (rest.drop (c - 1)) (push_symbol cp V_BASE)
            (by have := List.length_drop (c - 1) rest; omega) hwf2
            (by have := List.length_drop (c - 1) rest; omega)
            (fun q hq2 => hq q (by
              right
              exact List.mem_of_mem_drop hq2))
          refine ⟨?_, hrec.2⟩
          rw [hrec.1, htb]
          simp only [List.map_drop, symsBits_append, symsBits_cons, symsBits_nil]
          simp [List.append_assoc]
        · rw [if_neg hc1, if_neg hc1]
          set bias := (c - 2) / 16 with hbias
          set offset := (c - 2) % 16 with hoffset
          have hzsym : offset + Z_BASE < 112 := by
            have : offset < 16 := Nat.mod_lt _ (by omega)
            norm_num [Z_BASE]
            omega
          obtain ⟨htb1, hwf1⟩ := push_symbol_toBits cp hwf (offset + Z_BASE) hzsym
          by_cases hb0 : bias ≠ 0
          · rw [if_pos hb0, if_pos hb0]
            have hxsym : bias - 1 + X_BASE < 112 := by
              have hb32 : bias ≤ 32 := by
                have : c - 2 ≤ 527 := by omega
                omega
              norm_num [X_BASE]
              omega
            obtain ⟨htb2, hwf2⟩ :=
              push_symbol_toBits _ hwf1 (bias - 1 + X_BASE) hxsym
            have hrec := ih (rest.drop (c - 1)) _
              (by have := List.length_drop (c - 1) rest; omega) hwf2
              (by have := List.length_drop (c - 1) rest; omega)
              (fun q hq2 => hq q (List.mem_cons_of_mem _ (List.mem_of_mem_drop hq2)))
            refine ⟨?_, hrec.2⟩
            rw [hrec.1, htb2, htb1]
            simp only [List.map_drop, symsBits_append, symsBits_cons, symsBits_nil]
            simp [List.append_assoc]
          · rw [if_neg hb0, if_neg hb0]
            have hrec := ih (rest.drop (c - 1)) _
              (by have := List.length_drop (c - 1) rest; omega) hwf1
              (by have := List.length_drop (c - 1) rest; omega)
              (fun q hq2 => hq q (List.mem_cons_of_mem _ (List.mem_of_mem_drop hq2)))
            refine ⟨?_, hrec.2⟩
            rw [hrec.1, htb1]
            simp only [List.map_drop, symsBits_append, symsBits_cons, symsBits_nil]
            simp [List.append_assoc]
      · rw [if_neg hz, if_neg hz]
        dsimp only
        set v := quant p with hv
        have hvle : v ≤ 2048 := hq p (List.mem_cons_self p rest)
        have hoff : V_BASE + v % 64 < 112 := by
          have : v % 64 < 64 := Nat.mod_lt _ (by omega)
          norm_num [V_BASE]
          omega
        obtain ⟨htb1, hwf1⟩ := push_symbol_toBits cp hwf (V_BASE + v % 64) hoff
        by_cases hb0 : v / 64 ≠ 0
        · rw [if_pos hb0, if_pos hb0]
          have hxsym : X_BASE + v / 64 - 1 < 112 := by
            have : v / 64 ≤ 32 := by omega
            norm_num [X_BASE]
            omega
          have hxsym' : X_BASE + (v / 64 - 1) < 112 := by
            norm_num [X_BASE] at hxsym ⊢
            omega
          obtain ⟨htb2, hwf2⟩ := push_symbol_toBits _ hwf1 (X_BASE + v / 64 - 1)
            (by norm_num [X_BASE] at hxsym' ⊢; omega)
          have hrec := ih rest _ (by simp at hn ⊢; omega) hwf2
            (by simp at h529 ⊢; omega)
            (fun q hq2 => hq q (List.mem_cons_of_mem _ hq2))
          refine ⟨?_, hrec.2⟩
          rw [hrec.1, htb2, htb1]
          simp only [symsBits_append, symsBits_cons, symsBits_nil]
          simp [List.append_assoc]
        · rw [if_neg hb0, if_neg hb0]
          have hrec := ih rest _ (by simp at hn ⊢; omega) hwf1
            (by simp at h529 ⊢; omega)
            (fun q hq2 => hq q (List.mem_cons_of_mem _ hq2))
          refine ⟨?_, hrec.2⟩
          rw [hrec.1, htb1]
          simp only [symsBits_append, symsBits_cons, symsBits_nil]
          simp [List.append_assoc]

theorem getLast?_drop_lt (l : List Nat) (k : Nat) (h : k < l.length) :
    (l.drop k).getLast? = l.getLast? := by
  rw [List.getLast?_eq_getElem?, List.getLast?_eq_getElem?, List.getElem?_drop]
  congr 1
  simp only [List.length_drop]
  omega

theorem getLoopB_stepV (N : Nat) (pre post : List Bool) (R : List Nat)
    (s : Nat) (hs : s < 64) (optr : Nat) (prev : Int) (acc : List ℚ)
    (hoptr : optr < N) :
    getLoopB N (pre ++ (symsBits (s :: R) ++ post)) pre.length optr prev acc
      = getLoopB N ((pre ++ symEnc s) ++ (symsBits R ++ post))
          (pre ++ symEnc s).length (optr + 1) 0 (acc ++ [(s : ℚ) / 2048]) := by
  have hB : pre ++ (symsBits (s :: R) ++ post)
      = pre ++ (symEnc s ++ (symsBits R ++ post)) := by
    rw [symsBits_cons]
    simp [List.append_assoc]
  rw [hB, getLoopB, dif_pos hoptr]
  dsimp only
  rw [readSymbolStepB_at pre _ s (by omega)]
  dsimp only
  rw [if_pos (show s < Z_BASE by norm_num [Z_BASE]; omega)]
  have hstream : pre ++ (symEnc s ++ (symsBits R ++ post))
      = (pre ++ symEnc s) ++ (symsBits R ++ post) := by
    simp [List.append_assoc]
  have hcur : pre.length + symWidth s = (pre ++ symEnc s).length := by
    simp [symEnc_length]
  rw [hstream, hcur]

theorem getLoopB_stepZ (N : Nat) (pre post : List Bool) (R : List Nat)
    (s : Nat) (hs1 : 64 ≤ s) (hs2 : s < 80) (optr : Nat) (prev : Int)
    (acc : List ℚ) (hoptr : optr < N) (hrun : optr + (s - 64 + 2) ≤ N) :
    getLoopB N (pre ++ (symsBits (s :: R) ++ post)) pre.length optr prev acc
      = getLoopB N ((pre ++ symEnc s) ++ (symsBits R ++ post))
          (pre ++ symEnc s).length (optr + (s - 64 + 2)) 1
          (acc ++ List.replicate (s - 64 + 2) 0) := by
  have hB : pre ++ (symsBits (s :: R) ++ post)
      = pre ++ (symEnc s ++ (symsBits R ++ post)) := by
    rw [symsBits_cons]
    simp [List.append_assoc]
  rw [hB, getLoopB, dif_pos hoptr]
  dsimp only
  rw [readSymbolStepB_at pre _ s (by omega)]
  dsimp only
  rw [if_neg (show ¬ s < Z_BASE by norm_num [Z_BASE]; omega)]
  rw [if_pos (show s < X_BASE by norm_num [X_BASE]; omega)]
  rw [if_neg (show ¬ optr + (s - Z_BASE + 2) > N by norm_num [Z_BASE]; omega)]
  have hstream : pre ++ (symEnc s ++ (symsBits R ++ post))
      = (pre ++ symEnc s) ++ (symsBits R ++ post) := by
    simp [List.append_assoc]
  have hcur : pre.length + symWidth s = (pre ++ symEnc s).length := by
    simp [symEnc_length]
  have hZB : s - Z_BASE + 2 = s - 64 + 2 := rfl
  rw [hstream, hcur, hZB]

theorem getLoopB_stepXv (N : Nat) (pre post : List Bool) (R : List Nat)
    (s : Nat) (hs1 : 80 ≤ s) (hs2 : s < 112) (optr : Nat)
    (acc : List ℚ) (hoptr : optr < N) :
    getLoopB N (pre ++ (symsBits (s :: R) ++ post)) pre.length optr 0 acc
      = getLoopB N ((pre ++ symEnc s) ++ (symsBits R ++ post))
          (pre ++ symEnc s).length optr (-1)
          (acc.dropLast ++ [acc.getLast?.getD 0 + 64 / 2048 * ((s - 80 + 1 : Nat) : ℚ)]) := by
  have hB : pre ++ (symsBits (s :: R) ++ post)
      = pre ++ (symEnc s ++ (symsBits R ++ post)) := by
    rw [symsBits_cons]
    simp [List.append_assoc]
  rw [hB, getLoopB, dif_pos hoptr]
  dsimp only
  rw [readSymbolStepB_at pre _ s (by omega)]
  dsimp only
  rw [if_neg (show ¬ s < Z_BASE by norm_num [Z_BASE]; omega)]
  rw [if_neg (show ¬ s < X_BASE by norm_num [X_BASE]; omega)]
  rw [dif_pos rfl]
  have hstream : pre ++ (symEnc s ++ (symsBits R ++ post))
      = (pre ++ symEnc s) ++ (symsBits R ++ post) := by
    simp [List.append_assoc]
  have hcur : pre.length + symWidth s = (pre ++ symEnc s).length := by
    simp [symEnc_length]
  have hXB : s - X_BASE + 1 = s - 80 + 1 := rfl
  rw [hstream, hcur, hXB]

theorem getLoopB_stepXz (N : Nat) (pre post : List Bool) (R : List Nat)
    (s : Nat) (hs1 : 80 ≤ s) (hs2 : s < 112) (optr : Nat)
    (acc : List ℚ) (hoptr : optr < N) (hrun : optr + (s - 80 + 1) * 16 ≤ N) :
    getLoopB N (pre ++ (symsBits (s :: R) ++ post)) pre.length optr 1 acc
      = getLoopB N ((pre ++ symEnc s) ++ (symsBits R ++ post))
          (pre ++ symEnc s).length (optr + (s - 80 + 1) * 16) (-1)
          (acc ++ List.replicate ((s - 80 + 1) * 16) 0) := by
  have hB : pre ++ (symsBits (s :: R) ++ post)
      = pre ++ (symEnc s ++ (symsBits R ++ post)) := by
    rw [symsBits_cons]
    simp [List.append_assoc]
  rw [hB, getLoopB, dif_pos hoptr]
  dsimp only
  rw [readSymbolStepB_at pre _ s (by omega)]
  dsimp only
  rw [if_neg (show ¬ s < Z_BASE by norm_num [Z_BASE]; omega)]
  rw [if_neg (show ¬ s < X_BASE by norm_num [X_BASE]; omega)]
  rw [dif_neg (show ¬ (1 : Int) = 0 by norm_num)]
  rw [if_pos rfl]
  rw [if_neg (show ¬ optr + (s - X_BASE + 1) * 16 > N by norm_num [X_BASE]; omega)]
  have hstream : pre ++ (symEnc s ++ (symsBits R ++ post))
      = (pre ++ symEnc s) ++ (symsBits R ++ post) := by
    simp [List.append_assoc]
  have hcur : pre.length + symWidth s = (pre ++ symEnc s).length := by
    simp [symEnc_length]
  have hXB : s - X_BASE + 1 = s - 80 + 1 := rfl
  rw [hstream, hcur, hXB]

theorem decodeB_encoded :
    ∀ (n : Nat) (Q : List Nat), Q.length ≤ n →
    (∀ q ∈ Q, q ≤ 2048) →
    (∀ q0, Q.getLast? = some q0 → q0 < 64) →
    ∀ (N : Nat), N ≤ 529 →
    ∀ (pre post : List Bool) (optr : Nat) (prev : Int) (acc : List ℚ),
      optr + Q.length = N →
      getLoopB N (pre ++ (symsBits (encSymsQ Q) ++ post)) pre.length optr prev acc
        = .ok (acc ++ Q.map (fun q : Nat => (q : ℚ) / 2048),
               pre.length + (symsBits (encSymsQ Q)).length) := by
  intro n
  induction n with
  | zero =>
    intro Q hn _ _ N _ pre post optr prev acc hlen
    have hQ : Q = [] := List.length_eq_zero.mp (by omega)
    subst hQ
    rw [getLoopB, dif_neg (by simp at hlen; omega)]
    simp [encSymsQ, symsBits_nil]
  | succ n ih =>
    intro Q hn hq hlast N h529 pre post optr prev acc hlen
    match Q with
    | [] =>
      rw [getLoopB, dif_neg (by simp at hlen; omega)]
      simp [encSymsQ, symsBits_nil]
    | q :: Q' =>
      have hlc : (q :: Q').length = Q'.length + 1 := rfl
      have hoptr : optr < N := by omega
      have hlast' : ∀ q0, Q'.getLast? = some q0 → q0 < 64 := by
        intro q0 h0
        apply hlast
        cases Q' with
        | nil => simp at h0
        | cons b l => rw [List.getLast?_cons_cons]; exact h0
      by_cases hz : q = 0
      · -- zero run
        subst hz
        rw [encSymsQ, if_pos rfl]
        dsimp only
        rw [← Nat.add_comm (zeroRunQ Q') 1] at *
        set c := zeroRunQ Q' + 1 with hcdef
        have hcle : c ≤ Q'.length + 1 := by
          have := zeroRunQ_le Q'
          omega
        have htake : Q'.take (c - 1) = List.replicate (c - 1) 0 := by
          rw [show c - 1 = zeroRunQ Q' by omega]
          exact zeroRunQ_take Q'
        have hmap0 : (0 : ℚ) = ((0 : Nat) : ℚ) / 2048 := by norm_num
        have hmapQ : (0 :: Q').map (fun q : Nat => (q : ℚ) / 2048)
            = List.replicate c 0
              ++ (Q'.drop (c - 1)).map (fun q : Nat => (q : ℚ) / 2048) := by
          conv_lhs => rw [show Q' = Q'.take (c - 1) ++ Q'.drop (c - 1) by
            rw [List.take_append_drop]]
          rw [List.map_cons, List.map_append, htake, List.map_replicate]
          rw [show ((0 : Nat) : ℚ) / 2048 = (0 : ℚ) by norm_num]
          rw [show (c : Nat) = (c - 1) + 1 by omega, List.replicate_succ]
          simp
        have hlast'' : ∀ q0, (Q'.drop (c - 1)).getLast? = some q0 → q0 < 64 := by
          intro q0 h0
          by_cases hd : c - 1 < Q'.length
          · rw [getLast?_drop_lt _ _ hd] at h0
            exact hlast' q0 h0
          · rw [List.drop_eq_nil_of_le (by omega)] at h0
            simp at h0
        have hdn : (Q'.drop (c - 1)).length = Q'.length - (c - 1) :=
          List.length_drop _ _
        by_cases hc1 : c = 1
        · rw [if_pos hc1]
          have hstep := getLoopB_stepV N pre post (encSymsQ (Q'.drop (c - 1)))
            V_BASE (by norm_num [V_BASE]) optr prev acc hoptr
          rw [show (V_BASE :: encSymsQ (Q'.drop (c - 1)) : List Nat)
              = [V_BASE] ++ encSymsQ (Q'.drop (c - 1)) by simp] at hstep
          rw [hstep]
          rw [ih (Q'.drop (c - 1)) (by omega)
            (fun x hx => hq x (List.mem_cons_of_mem _ (List.mem_of_mem_drop hx)))
            hlast'' N h529 (pre ++ symEnc V_BASE) post (optr + 1) 0
            (acc ++ [((V_BASE : Nat) : ℚ) / 2048]) (by omega)]
          simp only [Except.ok.injEq, Prod.mk.injEq]
          constructor
          · rw [hmapQ]
            rw [show (c : Nat) = 1 from hc1]
            simp [V_BASE]
          · simp [symsBits_cons, symEnc_length]
            omega
        · rw [if_neg hc1]
          have hc2 : 2 ≤ c := by omega
          set offset := (c - 2) % 16 with hoffdef
          set bias := (c - 2) / 16 with hbiasdef
          have hco : 16 * bias + offset = c - 2 := Nat.div_add_mod _ _
          have hofflt : offset < 16 := Nat.mod_lt _ (by omega)
          have hrunz : optr + ((offset + Z_BASE) - 64 + 2) ≤ N := by
            have : offset + 2 ≤ c := by omega
            norm_num [Z_BASE]
            omega
          by_cases hb : bias ≠ 0
          · rw [if_pos hb]
            have hb32 : bias ≤ 32 := by
              have : c - 2 ≤ 527 := by omega
              omega
            -- Z step then X step
            have hstep1 := getLoopB_stepZ N pre post
              ((bias - 1 + X_BASE) :: encSymsQ (Q'.drop (c - 1)))
              (offset + Z_BASE) (by norm_num [Z_BASE]) (by norm_num [Z_BASE]; omega)
              optr prev acc hoptr hrunz
            rw [show ((offset + Z_BASE) :: ((bias - 1 + X_BASE) :: encSymsQ (Q'.drop (c - 1))) : List Nat)
                = ([offset + Z_BASE] ++ [bias - 1 + X_BASE]) ++ encSymsQ (Q'.drop (c - 1)) by simp] at hstep1
            rw [hstep1]
            have hoptr1 : optr + ((offset + Z_BASE) - 64 + 2) < N := by
              norm_num [Z_BASE]
              omega
            have hrunx : (optr + ((offset + Z_BASE) - 64 + 2))
                + ((bias - 1 + X_BASE) - 80 + 1) * 16 ≤ N := by
              norm_num [Z_BASE, X_BASE]
              have : offset + 2 + (bias - 1 + 1) * 16 = c := by omega
              omega
            have hstep2 := getLoopB_stepXz N (pre ++ symEnc (offset + Z_BASE)) post
              (encSymsQ (Q'.drop (c - 1)))
              (bias - 1 + X_BASE) (by norm_num [X_BASE]) (by norm_num [X_BASE]; omega)
              (optr + ((offset + Z_BASE) - 64 + 2))
              (acc ++ List.replicate ((offset + Z_BASE) - 64 + 2) 0) hoptr1 hrunx
            rw [hstep2]
            rw [ih (Q'.drop (c - 1)) (by omega)
              (fun x hx => hq x (List.mem_cons_of_mem _ (List.mem_of_mem_drop hx)))
              hlast'' N h529 _ post _ (-1) _ (by
                rw [hdn]
                norm_num [Z_BASE, X_BASE]
                omega)]
            simp only [Except.ok.injEq, Prod.mk.injEq]
            constructor
            · rw [hmapQ]
              rw [show (offset + Z_BASE) - 64 + 2 = offset + 2 by norm_num [Z_BASE]]
              rw [show ((bias - 1 + X_BASE) - 80 + 1) * 16 = bias * 16 by
                norm_num [X_BASE]; omega]
              rw [show (c : Nat) = offset + (1 + (1 + bias * 16)) by omega]
              rw [List.replicate_add, List.replicate_add, List.replicate_add]
              simp only [List.append_assoc, List.cons_append, List.nil_append,
                List.replicate_succ, List.replicate_zero, List.replicate]
              rw [show (1 : Nat) + bias * 16 = bias * 16 + 1 by omega, List.replicate_succ]
              simp
            · simp [symsBits_cons, symsBits_append, symEnc_length, List.length_append]
              omega
          · rw [if_neg hb]
            simp only [List.append_nil]
            have hbias0 : bias = 0 := by omega
            have hceq : c = offset + 2 := by omega
            have hstep1 := getLoopB_stepZ N pre post (encSymsQ (Q'.drop (c - 1)))
              (offset + Z_BASE) (by norm_num [Z_BASE]) (by norm_num [Z_BASE]; omega)
              optr prev acc hoptr hrunz
            rw [show ((offset + Z_BASE) :: encSymsQ (Q'.drop (c - 1)) : List Nat)
                = [offset + Z_BASE] ++ encSymsQ (Q'.drop (c - 1)) by simp] at hstep1
            rw [hstep1]
            rw [ih (Q'.drop (c - 1)) (by omega)
              (fun x hx => hq x (List.mem_cons_of_mem _ (List.mem_of_mem_drop hx)))
              hlast'' N h529 _ post _ 1 _ (by
                rw [hdn]
                norm_num [Z_BASE]
                omega)]
            simp only [Except.ok.injEq, Prod.mk.injEq]
            constructor
            · rw [hmapQ]
              rw [show (offset + Z_BASE) - 64 + 2 = offset + 2 by norm_num [Z_BASE]]
              rw [show (c : Nat) = offset + 2 from hceq]
              simp [List.append_assoc]
            · simp [symsBits_cons, symsBits_append, symEnc_length, List.length_append]
              omega
      · -- nonzero value
        have hq2048 : q ≤ 2048 := hq q (List.mem_cons_self q Q')
        rw [encSymsQ, if_neg hz]
        set offset := q % 64 with hoffdef
        set bias := q / 64 with hbiasdef
        have hofflt : offset < 64 := Nat.mod_lt _ (by omega)
        have hco : 64 * bias + offset = q := Nat.div_add_mod _ _
        by_cases hb : bias ≠ 0
        · rw [if_pos hb]
          have hb32 : bias ≤ 32 := by omega
          have hQne : Q' ≠ [] := by
            intro hcon
            subst hcon
            have := hlast q (by simp)
            omega
          have hQlen1 : 1 ≤ Q'.length := by
            cases Q' with
            | nil => exact absurd rfl hQne
            | cons a l => simp
          have hstep1 := getLoopB_stepV N pre post
            ((X_BASE + bias - 1) :: encSymsQ Q')
            (V_BASE + offset) (by norm_num [V_BASE]; omega) optr prev acc hoptr
          rw [show ((V_BASE + offset) :: ((X_BASE + bias - 1) :: encSymsQ Q') : List Nat)
              = ([V_BASE + offset] ++ [X_BASE + bias - 1]) ++ encSymsQ Q' by simp] at hstep1
          rw [hstep1]
          have hX80 : 80 ≤ X_BASE + bias - 1 := by norm_num [X_BASE]; omega
          have hstep2 := getLoopB_stepXv N (pre ++ symEnc (V_BASE + offset)) post
            (encSymsQ Q') (X_BASE + bias - 1) hX80 (by norm_num [X_BASE]; omega)
            (optr + 1) (acc ++ [((V_BASE + offset : Nat) : ℚ) / 2048])
            (by omega)
          rw [hstep2]
          rw [List.dropLast_concat, List.getLast?_concat]
          have hval : (Option.some (((V_BASE + offset : Nat) : ℚ) / 2048)).getD 0
              + 64 / 2048 * (((X_BASE + bias - 1) - 80 + 1 : Nat) : ℚ)
              = (q : ℚ) / 2048 := by
            rw [Option.getD_some]
            rw [show (X_BASE + bias - 1) - 80 + 1 = bias by norm_num [X_BASE]; omega]
            rw [show (V_BASE + offset : Nat) = offset by norm_num [V_BASE]]
            have hqQ : (q : ℚ) = (offset : ℚ) + 64 * (bias : ℚ) := by
              rw [show q = offset + 64 * bias by omega]
              push_cast
              ring
            rw [hqQ]
            ring
          rw [hval]
          rw [ih Q' (by omega)
            (fun x hx => hq x (List.mem_cons_of_mem _ hx))
            hlast' N h529 _ post _ (-1) _ (by omega)]
          simp only [Except.ok.injEq, Prod.mk.injEq]
          constructor
          · simp [List.append_assoc]
          · simp [symsBits_cons, symsBits_append, symEnc_length, List.length_append]
            omega
        · rw [if_neg hb]
          simp only [List.append_nil]
          have hbias0 : bias = 0 := by omega
          have hqlt : q < 64 := by omega
          have hstep1 := getLoopB_stepV N pre post (encSymsQ Q')
            (V_BASE + offset) (by norm_num [V_BASE]; omega) optr prev acc hoptr
          rw [show ((V_BASE + offset) :: encSymsQ Q' : List Nat)
              = [V_BASE + offset] ++ encSymsQ Q' by simp] at hstep1
          rw [hstep1]
          have hvq : (V_BASE + offset : Nat) = q := by
            norm_num [V_BASE]
            omega
          rw [ih Q' (by omega)
            (fun x hx => hq x (List.mem_cons_of_mem _ hx))
            hlast' N h529 _ post _ 0 _ (by omega)]
          simp only [Except.ok.injEq, Prod.mk.injEq]
          constructor
          · rw [hvq]
            simp [List.append_assoc]
          · simp [symsBits_cons, symsBits_append, symEnc_length, List.length_append]
            omega

theorem readSymbolStep_toBits (cp : bitstream) (hwf : cp.wf) (iptr : Nat) :
    readSymbolStep cp iptr = readSymbolStepB cp.toBits iptr := by
  unfold readSymbolStep readSymbolStepB
  rw [read_bits_toBits cp hwf iptr 10 (by omega)]

theorem getLoop_eq_getLoopB :
    ∀ k N (cp : bitstream) iptr optr (prev : Int) (acc : List ℚ),
      cp.wf →
      2 * (N - optr) + (if prev = (0 : Int) then 1 else 0) ≤ k →
      getLoop N cp iptr optr prev acc = getLoopB N cp.toBits iptr optr prev acc := by
  intro k
  induction k using Nat.strong_induction_on with
  | _ k ih =>
    intro N cp iptr optr prev acc hwf hk
    have e0 : (if (0 : Int) = 0 then (1 : Nat) else 0) = 1 := by norm_num
    have e1 : (if (1 : Int) = 0 then (1 : Nat) else 0) = 0 := by norm_num
    have em1 : (if (-1 : Int) = 0 then (1 : Nat) else 0) = 0 := by norm_num
    rw [getLoop, getLoopB]
    by_cases h : optr < N
    · rw [dif_pos h, dif_pos h]
      dsimp only
      rw [← readSymbolStep_toBits cp hwf iptr]
      by_cases h1 : (readSymbolStep cp iptr).1 < Z_BASE
      · rw [if_pos h1, if_pos h1]
        apply ih (k - 1) (by omega) _ _ _ _ _ _ hwf
        rw [e0]
        omega
      · rw [if_neg h1, if_neg h1]
        by_cases h2 : (readSymbolStep cp iptr).1 < X_BASE
        · rw [if_pos h2, if_pos h2]
          by_cases h3 : optr + ((readSymbolStep cp iptr).1 - Z_BASE + 2) > N
          · rw [if_pos h3, if_pos h3]
          · rw [if_neg h3, if_neg h3]
            apply ih (k - 1) (by omega) _ _ _ _ _ _ hwf
            rw [e1]
            omega
        · rw [if_neg h2, if_neg h2]
          by_cases h4 : prev = 0
          · rw [dif_pos h4, dif_pos h4]
            apply ih (k - 1) (by rw [if_pos h4] at hk; omega) _ _ _ _ _ _ hwf
            rw [em1]
            rw [if_pos h4] at hk
            omega
          · rw [dif_neg h4, dif_neg h4]
            by_cases h5 : prev = 1
            · rw [if_pos h5, if_pos h5]
              by_cases h6 : optr + ((readSymbolStep cp iptr).1 - X_BASE + 1) * 16 > N
              · rw [if_pos h6, if_pos h6]
              · rw [if_neg h6, if_neg h6]
                apply ih (k - 1) (by omega) _ _ _ _ _ _ hwf
                rw [em1]
                have hb : 1 ≤ (readSymbolStep cp iptr).1 - X_BASE + 1 := by omega
                omega
            · rw [if_neg h5, if_neg h5]
    · rw [dif_neg h, dif_neg h]

theorem quant_div_2048 (n : Nat) : quant ((n : ℚ) / 2048) = n := by
  unfold quant
  rw [div_mul_cancel₀ _ (by norm_num : (2048 : ℚ) ≠ 0)]
  simp

theorem quant_zero : quant 0 = 0 := by
  unfold quant
  norm_num

theorem zeroRunQ_replicate (n : Nat) : zeroRunQ (List.replicate n 0) = n := by
  induction n with
  | zero => rfl
  | succ m ih => rw [List.replicate_succ, zeroRunQ, if_pos rfl, ih]; omega

theorem zeroRunQ_replicate_append (n q : Nat) (l : List Nat) (hq : q ≠ 0) :
    zeroRunQ (List.replicate n 0 ++ q :: l) = n := by
  induction n with
  | zero => simp [zeroRunQ, hq]
  | succ m ih =>
    rw [List.replicate_succ, List.cons_append, zeroRunQ, if_pos rfl, ih]
    omega

theorem encSymsQ_nil : encSymsQ [] = [] := by rw [encSymsQ]

theorem encSymsQ_cons_nonzero (q : Nat) (l : List Nat) (hq : q ≠ 0) :
    encSymsQ (q :: l)
      = ([V_BASE + q % 64] ++ (if q / 64 ≠ 0 then [X_BASE + q / 64 - 1] else []))
        ++ encSymsQ l := by
  rw [encSymsQ, if_neg hq]

theorem encSymsQ_rZero : encSymsQ (List.replicate 361 0) = [71, 101] := by
  rw [show (361 : Nat) = 360 + 1 from rfl, List.replicate_succ]
  rw [encSymsQ, if_pos rfl]
  rw [zeroRunQ_replicate]
  norm_num
  exact ⟨by norm_num [Z_BASE], by norm_num [X_BASE], encSymsQ_nil⟩

theorem encSymsQ_tail254 : encSymsQ (List.replicate 254 0) = [76, 94] := by
  rw [show (254 : Nat) = 253 + 1 from rfl, List.replicate_succ]
  rw [encSymsQ, if_pos rfl]
  rw [zeroRunQ_replicate]
  norm_num
  exact ⟨by norm_num [Z_BASE], by norm_num [X_BASE], encSymsQ_nil⟩

theorem encSymsQ_rBad : encSymsQ (List.replicate 360 0 ++ [64]) = [70, 101, 0, 80] := by
  rw [show (360 : Nat) = 359 + 1 from rfl, List.replicate_succ, List.cons_append]
  rw [encSymsQ, if_pos rfl]
  rw [zeroRunQ_replicate_append 359 64 [] (by omega)]
  norm_num
  refine ⟨by norm_num [Z_BASE], by norm_num [X_BASE], ?_⟩
  rw [encSymsQ_cons_nonzero 64 [] (by omega), encSymsQ_nil]
  norm_num [Z_BASE, X_BASE, V_BASE]

theorem symsBits_length_cons (s : Nat) (l : List Nat) :
    (symsBits (s :: l)).length = symWidth s + (symsBits l).length := by
  rw [symsBits_cons, List.length_append, symEnc_length]

theorem encWidth_nil : encWidth [] = 0 := by
  unfold encWidth
  rw [encSymsQ_nil]
  rfl

theorem encWidth_cons_nonzero (q : Nat) (l : List Nat) (hq : q ≠ 0) :
    encWidth (q :: l)
      = (symWidth (V_BASE + q % 64)
          + (if q / 64 ≠ 0 then symWidth (X_BASE + q / 64 - 1) else 0))
        + encWidth l := by
  unfold encWidth
  rw [encSymsQ_cons_nonzero q l hq, symsBits_append, symsBits_append,
    List.length_append, List.length_append]
  congr 1
  by_cases hb : q / 64 ≠ 0
  · rw [if_pos hb, if_pos hb]
    simp [symsBits_cons, symsBits_nil, symEnc_length]
  · rw [if_neg hb, if_neg hb]
    simp [symsBits_cons, symsBits_nil, symEnc_length]

theorem encWidth_replicate_nonzero (q w : Nat) (hq : q ≠ 0)
    (hw : symWidth (V_BASE + q % 64)
        + (if q / 64 ≠ 0 then symWidth (X_BASE + q / 64 - 1) else 0) = w) :
    ∀ (n : Nat) (l : List Nat),
      encWidth (List.replicate n q ++ l) = n * w + encWidth l := by
  intro n
  induction n with
  | zero => simp
  | succ m ih =>
    intro l
    rw [List.replicate_succ, List.cons_append,
      encWidth_cons_nonzero q _ hq, ih, hw]
    ring

theorem encWidth_rZero : encWidth (List.replicate 361 0) = 16 := by
  unfold encWidth
  rw [encSymsQ_rZero]
  decide

theorem encWidth_rBadQ : encWidth (List.replicate 360 0 ++ [64]) = 24 := by
  unfold encWidth
  rw [encSymsQ_rBad]
  decide

theorem encWidth_rStarQ :
    encWidth (List.replicate 106 1120 ++ [1] ++ List.replicate 254 0) = 2033 := by
  rw [List.append_assoc,
    encWidth_replicate_nonzero 1120 19 (by omega) (by decide) 106
      ([1] ++ List.replicate 254 0)]
  rw [show ([1] ++ List.replicate 254 0 : List Nat)
      = 1 :: List.replicate 254 0 from rfl]
  rw [encWidth_cons_nonzero 1 _ (by omega)]
  norm_num
  rw [show encWidth (List.replicate 254 0)
      = (symsBits (encSymsQ (List.replicate 254 0))).length from rfl,
    encSymsQ_tail254]
  decide

theorem encWidth_rBigQ : encWidth (List.replicate 361 1120) = 6859 := by
  rw [show (List.replicate 361 1120 : List Nat)
      = List.replicate 361 1120 ++ [] from (List.append_nil _).symm]
  rw [encWidth_replicate_nonzero 1120 19 (by omega) (by decide) 361 []]
  rw [encWidth_nil]

theorem ofNetresult_size (r : Netresult) (hlen : r.policy.length ≤ 529)
    (hq : ∀ p ∈ r.policy, quant p ≤ 2048) :
    (CompressedEntry.ofNetresult r).compressed_policy.size
      = encWidth (r.policy.map quant) ∧
    (CompressedEntry.ofNetresult r).compressed_policy.wf ∧
    (CompressedEntry.ofNetresult r).compressed_policy.toBits
      = symsBits (encSymsQ (r.policy.map quant)) := by
  obtain ⟨htb, hwf⟩ := encodeLoop_toBits r.policy.length r.policy bitstream.clear
    le_rfl wf_clear hlen hq
  have hclear : bitstream.clear.toBits = [] := rfl
  rw [hclear, List.nil_append] at htb
  refine ⟨?_, hwf, htb⟩
  show (CompressedEntry.ofNetresult r).compressed_policy.bitcount = _
  rw [← toBits_length]
  show (encodeLoop r.policy bitstream.clear).toBits.length = _
  rw [htb]
  rfl

theorem quant_1120 : quant ((1120 : ℚ) / 2048) = 1120 := by
  have h := quant_div_2048 1120
  push_cast at h
  exact h

theorem quant_1 : quant ((1 : ℚ) / 2048) = 1 := by
  have h := quant_div_2048 1
  push_cast at h
  exact h

theorem quant_64 : quant ((64 : ℚ) / 2048) = 64 := by
  have h := quant_div_2048 64
  push_cast at h
  exact h

theorem map_quant_rZero : rZero.policy.map quant = List.replicate 361 0 := by
  show (List.replicate 361 (0 : ℚ)).map quant = _
  rw [List.map_replicate, quant_zero]

theorem map_quant_rBad : rBad.policy.map quant = List.replicate 360 0 ++ [64] := by
  show (List.replicate 360 (0 : ℚ) ++ [(64 / 2048 : ℚ)]).map quant = _
  rw [List.map_append, List.map_replicate, quant_zero, List.map_singleton, quant_64]

theorem map_quant_rStar :
    rStar.policy.map quant
      = List.replicate 106 1120 ++ [1] ++ List.replicate 254 0 := by
  show (List.replicate 106 (1120 / 2048 : ℚ) ++ [(1 / 2048 : ℚ)]
      ++ List.replicate 254 (0 : ℚ)).map quant = _
  rw [List.map_append, List.map_append, List.map_replicate, List.map_replicate,
    quant_zero, List.map_singleton, quant_1, quant_1120]

theorem map_quant_rBig : rBig.policy.map quant = List.replicate 361 1120 := by
  show (List.replicate 361 (1120 / 2048 : ℚ)).map quant = _
  rw [List.map_replicate, quant_1120]

theorem rZero_policy_bounds : rZero.policy.length ≤ 529 ∧ ∀ p ∈ rZero.policy, quant p ≤ 2048 := by
  constructor
  · show (List.replicate 361 (0 : ℚ)).length ≤ 529
    rw [List.length_replicate]
    omega
  · intro p hp
    have := List.eq_of_mem_replicate hp
    subst this
    rw [quant_zero]
    omega

theorem rBad_policy_bounds : rBad.policy.length ≤ 529 ∧ ∀ p ∈ rBad.policy, quant p ≤ 2048 := by
  constructor
  · show (List.replicate 360 (0 : ℚ) ++ [(64 / 2048 : ℚ)]).length ≤ 529
    rw [List.length_append, List.length_replicate]
    norm_num
  · intro p hp
    show quant p ≤ 2048
    rcases List.mem_append.mp hp with h | h
    · have := List.eq_of_mem_replicate h
      subst this
      rw [quant_zero]
      omega
    · rw [List.mem_singleton] at h
      subst h
      rw [quant_64]
      omega

theorem rStar_policy_bounds : rStar.policy.length ≤ 529 ∧ ∀ p ∈ rStar.policy, quant p ≤ 2048 := by
  constructor
  · show (List.replicate 106 (1120 / 2048 : ℚ) ++ [(1 / 2048 : ℚ)]
        ++ List.replicate 254 (0 : ℚ)).length ≤ 529
    rw [List.length_append, List.length_append, List.length_replicate,
      List.length_replicate]
    norm_num
  · intro p hp
    show quant p ≤ 2048
    rcases List.mem_append.mp hp with h | h
    · rcases List.mem_append.mp h with h2 | h2
      · have := List.eq_of_mem_replicate h2
        subst this
        rw [quant_1120]
        omega
      · rw [List.mem_singleton] at h2
        subst h2
        rw [quant_1]
        omega
    · have := List.eq_of_mem_replicate h
      subst this
      rw [quant_zero]
      omega

theorem rBig_policy_bounds : rBig.policy.length ≤ 529 ∧ ∀ p ∈ rBig.policy, quant p ≤ 2048 := by
  constructor
  · show (List.replicate 361 (1120 / 2048 : ℚ)).length ≤ 529
    rw [List.length_replicate]
    omega
  · intro p hp
    have := List.eq_of_mem_replicate hp
    subst this
    rw [quant_1120]
    omega

theorem compressedSizeBytes_rZero : compressedSizeBytes rZero = 2 := by
  unfold compressedSizeBytes
  rw [(ofNetresult_size rZero rZero_policy_bounds.1 rZero_policy_bounds.2).1,
    map_quant_rZero, encWidth_rZero]

theorem compressedSizeBytes_rStar : compressedSizeBytes rStar = 255 := by
  unfold compressedSizeBytes
  rw [(ofNetresult_size rStar rStar_policy_bounds.1 rStar_policy_bounds.2).1,
    map_quant_rStar, encWidth_rStarQ]

theorem compressedSizeBytes_rBig : compressedSizeBytes rBig = 858 := by
  have h : (CompressedEntry.ofNetresult rBig).compressed_policy.size = 6859 := by
    rw [(ofNetresult_size rBig rBig_policy_bounds.1 rBig_policy_bounds.2).1,
      map_quant_rBig, encWidth_rBigQ]
  rw [compressedSizeBytes.eq_1 rBig, h]

theorem rBad_stream :
    (CompressedEntry.ofNetresult rBad).compressed_policy.toBits
      = symsBits [70, 101, 0, 80] ∧
    (CompressedEntry.ofNetresult rBad).compressed_policy.wf ∧
    (CompressedEntry.ofNetresult rBad).compressed_policy.size = 24 := by
  obtain ⟨hsz, hwf, htb⟩ := ofNetresult_size rBad rBad_policy_bounds.1 rBad_policy_bounds.2
  rw [map_quant_rBad, encSymsQ_rBad] at htb
  rw [map_quant_rBad, encWidth_rBadQ] at hsz
  exact ⟨htb, hwf, hsz⟩

theorem getLoopB_rBad :
    getLoopB 361 (([] : List Bool) ++ (symsBits [70, 101, 0, 80] ++ [])) 0 0 (-1) []
      = .ok (List.replicate 361 (0 : ℚ), 20) := by
  have h1 := getLoopB_stepZ 361 [] [] [101, 0, 80] 70 (by omega) (by omega)
    0 (-1) [] (by omega) (by omega)
  rw [show ([] : List Bool).length = 0 from rfl] at h1
  rw [h1]
  have h2 := getLoopB_stepXz 361 ([] ++ symEnc 70) [] [0, 80] 101 (by omega) (by omega)
    (0 + (70 - 64 + 2)) (([] : List ℚ) ++ List.replicate (70 - 64 + 2) 0)
    (by omega) (by omega)
  rw [h2]
  have h3 := getLoopB_stepV 361 (([] ++ symEnc 70) ++ symEnc 101) [] [80] 0 (by omega)
    (0 + (70 - 64 + 2) + (101 - 80 + 1) * 16)
    (-1) ((([] : List ℚ) ++ List.replicate (70 - 64 + 2) 0)
      ++ List.replicate ((101 - 80 + 1) * 16) 0) (by omega)
  rw [h3]
  rw [getLoopB, dif_neg (by omega)]
  have hacc : (((([] : List ℚ) ++ List.replicate (70 - 64 + 2) 0)
        ++ List.replicate ((101 - 80 + 1) * 16) 0) ++ [((0 : Nat) : ℚ) / 2048])
      = List.replicate 361 (0 : ℚ) := by
    rw [List.nil_append]
    rw [show [((0 : Nat) : ℚ) / 2048] = List.replicate 1 (0 : ℚ) by norm_num]
    rw [List.append_assoc, ← List.replicate_add, ← List.replicate_add]
  have hlen : (((([] : List Bool) ++ symEnc 70) ++ symEnc 101) ++ symEnc 0).length = 20 := by
    rw [List.length_append, List.length_append, List.length_append,
      symEnc_length, symEnc_length, symEnc_length]
    decide
  rw [hacc, hlen]

theorem rBad_getD : rBad.policy.getD 360 0 = (64 / 2048 : ℚ) := by
  show (List.replicate 360 (0 : ℚ) ++ [(64 / 2048 : ℚ)]).getD 360 0 = _
  rw [List.getD_eq_getElem?_getD,
    List.getElem?_append_right (by rw [List.length_replicate])]
  rw [List.length_replicate]
  norm_num

/-- C1 (code bug): the round trip is not exact for every in-range policy.
For `rBad` — all entries zero except `p[360] = 64/2048`, each entry in
`[0,1]` — the decoder `get` succeeds but returns the all-zero policy:
`⌊p'[360]·2048⌋ = 0 ≠ 64 = ⌊p[360]·2048⌋` and `|p[360] − p'[360]| = 1/32 >
1/2048`.  The encoder emits `V0 X0` for the final entry; the decode loop
exits once 361 values are written, so the trailing X modifier is never
applied, and the final-cursor check (20 vs size 24) still passes. -/
theorem codec_last_entry_bug :
    (CompressedEntry.ofNetresult rBad).get
      = .ok ⟨List.replicate 361 (0 : ℚ), 0, 0⟩ ∧
    quant (rBad.policy.getD 360 0) = 64 ∧
    quant ((List.replicate 361 (0 : ℚ)).getD 360 0) = 0 := by
  obtain ⟨htb, hwf, hsz⟩ := rBad_stream
  refine ⟨?_, ?_, ?_⟩
  · unfold CompressedEntry.get
    rw [show NUM_INTERSECTIONS = 361 from rfl]
    rw [getLoop_eq_getLoopB (2 * 361 + 1) 361 _ 0 0 (-1) [] hwf (by norm_num)]
    rw [htb]
    rw [show symsBits [70, 101, 0, 80]
        = ([] : List Bool) ++ (symsBits [70, 101, 0, 80] ++ []) by simp]
    rw [getLoopB_rBad]
    rw [hsz]
    dsimp only
    rw [if_neg (show ¬ sizeCheckFails 20 24 by unfold sizeCheckFails; omega)]
    rfl
  · rw [rBad_getD, quant_64]
  · rw [List.getD_eq_getElem?_getD, List.getElem?_replicate]
    rw [if_pos (by omega)]
    exact quant_zero

theorem evictOrderLoop_nil (cache : List (Nat × Netresult)) (maxsz : Nat) :
    evictOrderLoop cache [] maxsz = (cache, []) := by
  rw [evictOrderLoop]
  simp

theorem insert_mem_eq (st : CacheState) (hash : Nat) (r : Netresult)
    (hmem : inMemoryTier st hash = true) :
    NNCache.insert st hash r = st := by
  unfold inMemoryTier at hmem
  unfold NNCache.insert
  rw [if_pos hmem]

theorem insert_fresh_closed_nocap (st : CacheState) (hash : Nat) (r : Netresult)
    (hmem : inMemoryTier st hash = false) (hcl : st.m_outfile_open = false)
    (hcap : st.m_order.length < st.m_max_cache_size) :
    NNCache.insert st hash r = { st with
      m_cache := st.m_cache ++ [(hash, r)],
      m_order := st.m_order ++ [hash],
      m_inserts := st.m_inserts + 1 } := by
  unfold inMemoryTier at hmem
  unfold NNCache.insert
  rw [if_neg (by rw [hmem]; exact Bool.false_ne_true)]
  dsimp only
  rw [if_neg (show ¬ (((CompressedEntry.ofNetresult r).compressed_policy.size + 7) / 8 < 256
      ∧ hash ≠ SENTINEL_HASH ∧ st.m_outfile_open = true ∧ st.m_outfile_good = true) from
    fun h => Bool.false_ne_true (hcl ▸ h.2.2.1))]
  rw [if_neg (show ¬ ({ st with
      m_cache := st.m_cache ++ [(hash, r)],
      m_order := st.m_order ++ [hash],
      m_inserts := st.m_inserts + 1 } : CacheState).m_order.length
        > st.m_max_cache_size by
    dsimp only
    rw [List.length_append]
    simp only [List.length_singleton]
    omega)]

theorem insert_fresh_closed_evict (st : CacheState) (hash : Nat) (r : Netresult)
    (hmem : inMemoryTier st hash = false) (hcl : st.m_outfile_open = false)
    (hcap : st.m_max_cache_size ≤ st.m_order.length) :
    NNCache.insert st hash r = { st with
      m_cache := (st.m_cache ++ [(hash, r)]).eraseP
        (fun p => p.1 == (st.m_order ++ [hash]).headD 0),
      m_order := (st.m_order ++ [hash]).drop 1,
      m_inserts := st.m_inserts + 1 } := by
  unfold inMemoryTier at hmem
  unfold NNCache.insert
  rw [if_neg (by rw [hmem]; exact Bool.false_ne_true)]
  dsimp only
  rw [if_neg (show ¬ (((CompressedEntry.ofNetresult r).compressed_policy.size + 7) / 8 < 256
      ∧ hash ≠ SENTINEL_HASH ∧ st.m_outfile_open = true ∧ st.m_outfile_good = true) from
    fun h => Bool.false_ne_true (hcl ▸ h.2.2.1))]
  rw [if_pos (show ({ st with
      m_cache := st.m_cache ++ [(hash, r)],
      m_order := st.m_order ++ [hash],
      m_inserts := st.m_inserts + 1 } : CacheState).m_order.length
        > st.m_max_cache_size by
    dsimp only
    rw [List.length_append]
    simp only [List.length_singleton]
    omega)]

theorem insert_open_append (st : CacheState) (hash : Nat) (r : Netresult)
    (hmem : inMemoryTier st hash = false)
    (hsize : compressedSizeBytes r < 256) (hsent : hash ≠ SENTINEL_HASH)
    (hopen : st.m_outfile_open = true) (hgood : st.m_outfile_good = true)
    (hmap : st.m_outfile_map = []) (hmax : st.m_max_outfile_map_size = 0)
    (hcap : st.m_order.length < st.m_max_cache_size) :
    NNCache.insert st hash r = { st with
      m_outfile := st.m_outfile ++ [LogItem.record hash r.policy_pass r.winrate
        (compressedSizeBytes r)
        (policyBytes (CompressedEntry.ofNetresult r).compressed_policy)],
      m_outfile_pos := st.m_outfile_pos + 17 + compressedSizeBytes r,
      m_outfile_map := [],
      m_cache := st.m_cache ++ [(hash, r)],
      m_order := st.m_order ++ [hash],
      m_inserts := st.m_inserts + 1 } := by
  unfold inMemoryTier at hmem
  rw [compressedSizeBytes.eq_1 r] at hsize
  unfold NNCache.insert
  rw [if_neg (by rw [hmem]; exact Bool.false_ne_true)]
  dsimp only
  rw [if_pos (show (((CompressedEntry.ofNetresult r).compressed_policy.size + 7) / 8 < 256
      ∧ hash ≠ SENTINEL_HASH ∧ st.m_outfile_open = true ∧ st.m_outfile_good = true) from
    ⟨hsize, hsent, hopen, hgood⟩)]
  rw [hmap]
  rw [show mapInsert [] hash st.m_outfile_pos = [(hash, st.m_outfile_pos)] from rfl]
  rw [if_neg (show ¬ ([(hash, st.m_outfile_pos)].length % 1024 = 0) by
    simp only [List.length_singleton]
    omega)]
  rw [if_pos (show [(hash, st.m_outfile_pos)].length > st.m_max_outfile_map_size by
    simp only [List.length_singleton]
    omega)]
  dsimp only
  rw [if_neg (show ¬ (st.m_order ++ [hash]).length > st.m_max_cache_size by
    rw [List.length_append]
    simp only [List.length_singleton]
    omega)]
  rw [← compressedSizeBytes.eq_1 r]
  rfl

theorem initSmall_eq : initSmall =
    { m_cache := [], m_order := [], m_outfile := [LogItem.guard],
      m_outfile_pos := 20, m_outfile_open := true, m_outfile_good := true,
      m_outfile_map := [], m_filename := "nncache.bin", m_size := 6000,
      m_max_cache_size := 6000, m_max_outfile_map_size := 0, m_hits := 0,
      m_file_hits := 0, m_lookups := 0, m_inserts := 0 } := by
  unfold initSmall NNCache.load_cachefile memOnlyState
  dsimp only
  rw [if_neg (show ¬ ((Option.isNone (none : Option (List Nat))) = true ∧ false = true) from
    fun h => Bool.false_ne_true h.2)]
  unfold NNCache.resize
  dsimp only
  rw [evictOrderLoop_nil]
  unfold loadFinish
  dsimp only
  norm_num [MIN_CACHE_COUNT, MAX_CACHE_COUNT, ENTRY_SIZE]

theorem lookup_map_self_none (f : Nat → Netresult) :
    ∀ (l : List Nat) (n : Nat), n ∉ l →
      (l.map (fun i => (i, f i))).lookup n = none := by
  intro l
  induction l with
  | nil => intro n _; rfl
  | cons a t ih =>
    intro n hn
    have hna : n ≠ a := fun h => hn (h ▸ List.mem_cons_self a t)
    have hnt : n ∉ t := fun h => hn (List.mem_cons_of_mem a h)
    simp only [List.map_cons, List.lookup, beq_eq_false_iff_ne.mpr hna]
    exact ih n hnt

theorem eraseP_head_key (d : Nat) (r : Netresult) (rest : List (Nat × Netresult)) :
    ((d, r) :: rest).eraseP (fun p => p.1 == d) = rest := by
  rw [List.eraseP_cons_of_pos]
  simp

theorem mo_cap : (memOnlyState 6000).m_order.length < (memOnlyState 6000).m_max_cache_size := by
  norm_num [memOnlyState]

/-- C3 (code bug): the client's receive path drops `policy_pass`.  The
response block carries `N` policy values, then `policy_pass` at index `N`,
then `winrate` at index `N + 1`; `get_output_internal` copies only the
first `N` floats into the zero-initialised `(N+1)`-vector, so the slot that
feeds the pass output is always the vector's zero fill, never the block's
`policy_pass` (the winrate, read from index `N + 1`, does survive).
Concretely, for `N = 2` and block `[10, 20, 30, 40]`, the result carries
pass output `0`, not `30`. -/
theorem policy_pass_dropped :
    (∀ (N : Nat) (out : List Nat),
      (get_output_internal_receive N out).1.getD N 0 = 0) ∧
    get_output_internal_receive 2 [10, 20, 30, 40] = ([10, 20, 0], 40) ∧
    [10, 20, 30, 40].getD 2 0 = 30 := by
  refine ⟨?_, by decide, by decide⟩
  intro N out
  unfold get_output_internal_receive
  rcases Nat.lt_or_ge out.length N with h | h
  · rw [List.getD_eq_getElem?_getD, List.getElem?_eq_none]
    · rfl
    · rw [List.length_append, List.length_take, List.length_drop,
        List.length_replicate]
      omega
  · rw [List.getD_eq_getElem?_getD,
      List.getElem?_append_right (by rw [List.length_take]; omega)]
    rw [List.length_take, Nat.min_eq_left h]
    rw [List.getElem?_drop]
    rw [List.getElem?_replicate]
    rw [if_pos (by omega)]
    rfl

/-- C4 (corrected): a second `insert` of a fingerprint already present in
the memory tier returns before doing anything at all — the stored entry,
the eviction order and the file tier are unchanged, and (contrary to the
claim) the `inserts` statistic is NOT incremented: the early return sits
before `++m_inserts`. -/
theorem reinsert_noop (st : CacheState) (hash : Nat) (r : Netresult)
    (hmem : inMemoryTier st hash = true) :
    NNCache.insert st hash r = st :=
  insert_mem_eq st hash r hmem

theorem reinsert_noop_witness :
    inMemoryTier (NNCache.insert (memOnlyState 6000) 1 rZero) 1 = true ∧
    NNCache.insert (NNCache.insert (memOnlyState 6000) 1 rZero) 1 rZero
      = NNCache.insert (memOnlyState 6000) 1 rZero := by
  have h1 : NNCache.insert (memOnlyState 6000) 1 rZero
      = { memOnlyState 6000 with
          m_cache := [(1, rZero)]
          m_order := [1]
          m_inserts := 1 } := by
    rw [insert_fresh_closed_nocap (memOnlyState 6000) 1 rZero rfl rfl mo_cap]
    rfl
  have h2 : inMemoryTier (NNCache.insert (memOnlyState 6000) 1 rZero) 1 = true := by
    rw [h1]
    rfl
  exact ⟨h2, reinsert_noop _ 1 rZero h2⟩

/-- Counterexample to C4 as stated: after a first insert of fingerprint 1
and a second insert of the same fingerprint, `m_inserts` is 1, not 2 — the
re-insert does not increment the statistic. -/
theorem reinsert_inserts_stat :
    (NNCache.insert (NNCache.insert (memOnlyState 6000) 1 rZero) 1 rZero).m_inserts
      = 1 := by
  have h1 : NNCache.insert (memOnlyState 6000) 1 rZero
      = { memOnlyState 6000 with
          m_cache := [(1, rZero)]
          m_order := [1]
          m_inserts := 1 } := by
    rw [insert_fresh_closed_nocap (memOnlyState 6000) 1 rZero rfl rfl mo_cap]
    rfl
  have h2 : inMemoryTier ({ memOnlyState 6000 with
      m_cache := [(1, rZero)]
      m_order := [1]
      m_inserts := 1 } : CacheState) 1 = true := rfl
  rw [h1, insert_mem_eq _ 1 rZero h2]

theorem insert_sentinel_frame (st : CacheState) (r : Netresult) :
    (NNCache.insert st SENTINEL_HASH r).m_outfile = st.m_outfile ∧
    (NNCache.insert st SENTINEL_HASH r).m_outfile_map = st.m_outfile_map := by
  unfold NNCache.insert
  by_cases hmem : (st.m_cache.lookup SENTINEL_HASH).isSome = true
  · rw [if_pos hmem]
    exact ⟨rfl, rfl⟩
  · rw [if_neg hmem]
    dsimp only
    rw [if_neg (show ¬ (((CompressedEntry.ofNetresult r).compressed_policy.size + 7) / 8 < 256
        ∧ SENTINEL_HASH ≠ SENTINEL_HASH ∧ st.m_outfile_open = true
        ∧ st.m_outfile_good = true) from fun h => h.2.1 rfl)]
    split
    · exact ⟨rfl, rfl⟩
    · exact ⟨rfl, rfl⟩

/-- C6: inserting under the reserved all-ones fingerprint never appends a
record to the on-disk log and never adds the sentinel to the file index —
the file tier is untouched, and a sentinel-free state stays sentinel-free
(in every reachable state neither the log nor the index mentions the
sentinel, since both only grow through `insert`'s guarded append). -/
theorem sentinel_never_persisted (st : CacheState) (r : Netresult)
    (hsf : SentinelFree st) :
    (NNCache.insert st SENTINEL_HASH r).m_outfile = st.m_outfile ∧
    (NNCache.insert st SENTINEL_HASH r).m_outfile_map = st.m_outfile_map ∧
    SentinelFree (NNCache.insert st SENTINEL_HASH r) := by
  obtain ⟨h1, h2⟩ := insert_sentinel_frame st r
  refine ⟨h1, h2, ?_⟩
  unfold SentinelFree at hsf ⊢
  rw [h1, h2]
  exact hsf

theorem sentinelFree_memOnly : SentinelFree (memOnlyState 6000) :=
  ⟨fun p hp => absurd hp (List.not_mem_nil p),
   fun it hit => absurd hit (List.not_mem_nil it)⟩

theorem sentinel_never_persisted_witness :
    SentinelFree (memOnlyState 6000) ∧
    ((NNCache.insert (memOnlyState 6000) SENTINEL_HASH rZero).m_outfile
        = (memOnlyState 6000).m_outfile ∧
     (NNCache.insert (memOnlyState 6000) SENTINEL_HASH rZero).m_outfile_map
        = (memOnlyState 6000).m_outfile_map ∧
     SentinelFree (NNCache.insert (memOnlyState 6000) SENTINEL_HASH rZero)) :=
  ⟨sentinelFree_memOnly,
   sentinel_never_persisted (memOnlyState 6000) rZero sentinelFree_memOnly⟩

/-- Counterexample to C8 as stated: loading an existing file whose first
four bytes are not the magic returns `false`, but `m_filename` is NOT
cleared — it keeps the requested filename, a non-empty string. -/
theorem wrong_magic_keeps_filename :
    (NNCache.load_cachefile (memOnlyState 6000) badMagicFS "f.bin" true).1 = false ∧
    (NNCache.load_cachefile (memOnlyState 6000) badMagicFS "f.bin" true).2.m_filename
      = "f.bin" ∧
    "f.bin" ≠ "" := by
  refine ⟨rfl, rfl, by decide⟩

/-- C8 (corrected): for an existing file whose first four bytes are not the
magic, `load_cachefile` returns `false` and opens no writer; but
`m_filename` is left holding the requested filename (the code clears it
only on the missing-file and empty-index read-only paths, not on the
wrong-magic path). -/
theorem wrong_magic_load (st : CacheState) (fs : String → Option (List Nat))
    (filename : String) (read_only : Bool) (bytes : List Nat)
    (hfs : fs filename = some bytes) (hmagic : bytes.take 4 ≠ MAGIC_BYTES) :
    (NNCache.load_cachefile st fs filename read_only).1 = false ∧
    (NNCache.load_cachefile st fs filename read_only).2.m_outfile_open = false ∧
    (NNCache.load_cachefile st fs filename read_only).2.m_filename = filename := by
  unfold NNCache.load_cachefile
  rw [hfs]
  dsimp only
  rw [if_neg (show ¬ ((some bytes).isNone = true ∧ read_only = true) from
    fun h => by simp at h)]
  rw [if_neg hmagic]
  exact ⟨rfl, rfl, rfl⟩

theorem wrong_magic_load_witness :
    badMagicFS "f.bin" = some (List.replicate 64 0) ∧
    (List.replicate 64 0).take 4 ≠ MAGIC_BYTES ∧
    ((NNCache.load_cachefile (memOnlyState 6000) badMagicFS "f.bin" true).1 = false ∧
     (NNCache.load_cachefile (memOnlyState 6000) badMagicFS "f.bin" true).2.m_outfile_open
        = false ∧
     (NNCache.load_cachefile (memOnlyState 6000) badMagicFS "f.bin" true).2.m_filename
        = "f.bin") :=
  ⟨rfl, by decide,
   wrong_magic_load (memOnlyState 6000) badMagicFS "f.bin" true
     (List.replicate 64 0) rfl (by decide)⟩

theorem insert_outfile_cases (st : CacheState) (hash : Nat) (r : Netresult) :
    (NNCache.insert st hash r).m_outfile = st.m_outfile ∨
    (compressedSizeBytes r < 256 ∧
      ((NNCache.insert st hash r).m_outfile = st.m_outfile
          ++ [LogItem.record hash r.policy_pass r.winrate (compressedSizeBytes r)
              (policyBytes (CompressedEntry.ofNetresult r).compressed_policy)] ∨
       (NNCache.insert st hash r).m_outfile = st.m_outfile
          ++ [LogItem.record hash r.policy_pass r.winrate (compressedSizeBytes r)
              (policyBytes (CompressedEntry.ofNetresult r).compressed_policy),
              LogItem.guard])) := by
  unfold NNCache.insert
  by_cases hmem : (st.m_cache.lookup hash).isSome = true
  · rw [if_pos hmem]
    exact .inl rfl
  · rw [if_neg hmem]
    dsimp only
    by_cases hcond : ((CompressedEntry.ofNetresult r).compressed_policy.size + 7) / 8 < 256
        ∧ hash ≠ SENTINEL_HASH ∧ st.m_outfile_open = true ∧ st.m_outfile_good = true
    · rw [if_pos hcond]
      refine .inr ⟨by rw [compressedSizeBytes.eq_1]; exact hcond.1, ?_⟩
      rw [← compressedSizeBytes.eq_1 r]
      by_cases hg : (mapInsert st.m_outfile_map hash st.m_outfile_pos).length % 1024 = 0
      · rw [if_pos hg]
        right
        split <;> split <;> simp [List.append_assoc, CompressedEntry.ofNetresult]
      · rw [if_neg hg]
        left
        split <;> split <;> rfl
    · rw [if_neg hcond]
      left
      split
      · rfl
      · rfl

/-- C2 (corrected): the appended record's one-byte length field is always
below 256 — the code's gate is `size_in_bytes < 256`, so `n = 255 = 0xFF`
is allowed and reachable, not forbidden; only sizes of 256 bytes and more
are rejected.  Every item of the log after an insert is an old item, a
guard, or a record whose length byte is < 256. -/
theorem insert_record_length_gate (st : CacheState) (hash : Nat) (r : Netresult) :
    ∀ it ∈ (NNCache.insert st hash r).m_outfile,
      it ∈ st.m_outfile ∨ it = LogItem.guard
        ∨ ∃ n, recLen it = some n ∧ n < 256 := by
  intro it hit
  rcases insert_outfile_cases st hash r with h | ⟨hlt, h | h⟩
  · rw [h] at hit
    exact .inl hit
  · rw [h] at hit
    rcases List.mem_append.mp hit with h2 | h2
    · exact .inl h2
    · rw [List.mem_singleton] at h2
      subst h2
      exact .inr (.inr ⟨_, rfl, hlt⟩)
  · rw [h] at hit
    rcases List.mem_append.mp hit with h2 | h2
    · exact .inl h2
    · rcases List.mem_cons.mp h2 with h3 | h3
      · subst h3
        exact .inr (.inr ⟨_, rfl, hlt⟩)
      · rw [List.mem_singleton] at h3
        subst h3
        exact .inr (.inl rfl)

/-- Counterexample to C2 as stated: `rStar` compresses to exactly 255
bytes, and inserting it into a cache with an open writer appends a record
whose length byte is `255 = 0xFF`. -/
theorem insert_appends_len255 :
    compressedSizeBytes rStar = 255 ∧
    (NNCache.insert initSmall 1 rStar).m_outfile
      = [LogItem.guard,
         LogItem.record 1 5 7 255
           (policyBytes (CompressedEntry.ofNetresult rStar).compressed_policy)] := by
  refine ⟨compressedSizeBytes_rStar, ?_⟩
  rw [initSmall_eq]
  rw [insert_open_append
    { m_cache := [], m_order := [], m_outfile := [LogItem.guard],
      m_outfile_pos := 20, m_outfile_open := true, m_outfile_good := true,
      m_outfile_map := [], m_filename := "nncache.bin", m_size := 6000,
      m_max_cache_size := 6000, m_max_outfile_map_size := 0, m_hits := 0,
      m_file_hits := 0, m_lookups := 0, m_inserts := 0 } 1 rStar rfl
    (by rw [compressedSizeBytes_rStar]; omega) (by unfold SENTINEL_HASH; omega)
    rfl rfl rfl rfl (by norm_num)]
  rw [compressedSizeBytes_rStar]
  rfl

theorem insert_record_length_gate_witness :
    LogItem.guard ∈ (NNCache.insert initSmall 1 rStar).m_outfile ∧
    (LogItem.guard ∈ initSmall.m_outfile ∨ LogItem.guard = LogItem.guard
      ∨ ∃ n, recLen LogItem.guard = some n ∧ n < 256) := by
  have hmem : LogItem.guard ∈ (NNCache.insert initSmall 1 rStar).m_outfile := by
    rw [initSmall_eq]
    rw [insert_open_append
      { m_cache := [], m_order := [], m_outfile := [LogItem.guard],
        m_outfile_pos := 20, m_outfile_open := true, m_outfile_good := true,
        m_outfile_map := [], m_filename := "nncache.bin", m_size := 6000,
        m_max_cache_size := 6000, m_max_outfile_map_size := 0, m_hits := 0,
        m_file_hits := 0, m_lookups := 0, m_inserts := 0 } 1 rStar rfl
      (by rw [compressedSizeBytes_rStar]; omega) (by unfold SENTINEL_HASH; omega)
      rfl rfl rfl rfl (by norm_num)]
    exact List.mem_append_left _ (List.mem_singleton_self _)
  exact ⟨hmem, insert_record_length_gate initSmall 1 rStar LogItem.guard hmem⟩

theorem runInserts_succ (st : CacheState) (n : Nat) :
    runInserts st (n + 1) = NNCache.insert (runInserts st n) n rZero := by
  unfold runInserts
  rw [List.range_succ, List.foldl_append]
  rfl

theorem countGuards_append_record (l : List LogItem) (h p w n : Nat) (pb : List Nat) :
    countGuards (l ++ [LogItem.record h p w n pb]) = countGuards l := by
  unfold countGuards
  rw [List.countP_append]
  rfl

theorem countRecords_append_record (l : List LogItem) (h p w n : Nat) (pb : List Nat) :
    countRecords (l ++ [LogItem.record h p w n pb]) = countRecords l + 1 := by
  unfold countRecords
  rw [List.countP_append]
  rfl

theorem runInserts_initSmall (k : Nat) (hk : k ≤ 6000) :
    (runInserts initSmall k).m_cache
        = (List.range k).map (fun i => (i, rZero)) ∧
    (runInserts initSmall k).m_order = List.range k ∧
    (runInserts initSmall k).m_outfile_open = true ∧
    (runInserts initSmall k).m_outfile_good = true ∧
    (runInserts initSmall k).m_outfile_map = [] ∧
    (runInserts initSmall k).m_max_outfile_map_size = 0 ∧
    (runInserts initSmall k).m_max_cache_size = 6000 ∧
    countRecords (runInserts initSmall k).m_outfile = k ∧
    countGuards (runInserts initSmall k).m_outfile = 1 := by
  induction k with
  | zero =>
    rw [show runInserts initSmall 0 = initSmall from rfl, initSmall_eq]
    refine ⟨rfl, rfl, rfl, rfl, rfl, rfl, rfl, rfl, rfl⟩
  | succ n ih =>
    obtain ⟨hc, ho, hop, hgd, hm, hmx, hmc, hcr, hcg⟩ := ih (by omega)
    have hmem : inMemoryTier (runInserts initSmall n) n = false := by
      unfold inMemoryTier
      rw [hc, lookup_map_self_none (fun _ => rZero) (List.range n) n (by simp)]
      rfl
    have hstep := insert_open_append (runInserts initSmall n) n rZero hmem
      (by rw [compressedSizeBytes_rZero]; omega)
      (by unfold SENTINEL_HASH; omega)
      hop hgd hm hmx
      (by rw [ho, List.length_range, hmc]; omega)
    rw [runInserts_succ, hstep]
    refine ⟨?_, ?_, hop, hgd, rfl, hmx, hmc, ?_, ?_⟩
    · dsimp only
      rw [hc, List.range_succ, List.map_append]
      rfl
    · dsimp only
      rw [ho, List.range_succ]
    · dsimp only
      rw [countRecords_append_record, hcr]
    · dsimp only
      rw [countGuards_append_record, hcg]

/-- Counterexample to C5 as stated: after 1024 file appends from a writer
whose file-index budget is zero, the log holds 1024 records but only the
single open-time guard — no guard was written at the 1024th append,
because the index (not the append count) drives the guard schedule and the
index is emptied right after each append. -/
theorem guard_not_every_1024 :
    countRecords (runInserts initSmall 1024).m_outfile = 1024 ∧
    countGuards (runInserts initSmall 1024).m_outfile = 1 :=
  ⟨(runInserts_initSmall 1024 (by omega)).2.2.2.2.2.2.2.1,
   (runInserts_initSmall 1024 (by omega)).2.2.2.2.2.2.2.2⟩

/-- C5 (corrected): the writer emits the 16-byte guard at open time
(`load_cachefile`'s write path), and an appending `insert` emits a guard
exactly when the file-index size right after the `m_outfile_map[hash] = pos`
update is divisible by 1024 — the schedule follows the index size, not the
number of appended records, and the two coincide only while the index
retains every appended entry. -/
theorem guard_follows_map_size (st : CacheState) (hash : Nat) (r : Netresult)
    (hmem : inMemoryTier st hash = false)
    (hsize : compressedSizeBytes r < 256) (hsent : hash ≠ SENTINEL_HASH)
    (hopen : st.m_outfile_open = true) (hgood : st.m_outfile_good = true) :
    countGuards (NNCache.insert st hash r).m_outfile
      = countGuards st.m_outfile
        + (if (mapInsert st.m_outfile_map hash st.m_outfile_pos).length % 1024 = 0
           then 1 else 0) ∧
    countRecords (NNCache.insert st hash r).m_outfile
      = countRecords st.m_outfile + 1 := by
  unfold inMemoryTier at hmem
  rw [compressedSizeBytes.eq_1 r] at hsize
  unfold NNCache.insert
  rw [if_neg (by rw [hmem]; exact Bool.false_ne_true)]
  dsimp only
  rw [if_pos (show (((CompressedEntry.ofNetresult r).compressed_policy.size + 7) / 8 < 256
      ∧ hash ≠ SENTINEL_HASH ∧ st.m_outfile_open = true ∧ st.m_outfile_good = true) from
    ⟨hsize, hsent, hopen, hgood⟩)]
  by_cases hg : (mapInsert st.m_outfile_map hash st.m_outfile_pos).length % 1024 = 0
  · rw [if_pos hg, if_pos hg]
    constructor
    · split <;> split <;>
        (unfold countGuards; rw [List.countP_append, List.countP_append]; rfl)
    · split <;> split <;>
        (unfold countRecords; rw [List.countP_append, List.countP_append]; rfl)
  · rw [if_neg hg, if_neg hg]
    constructor
    · split <;> split <;>
        (unfold countGuards; rw [List.countP_append]; rfl)
    · split <;> split <;>
        (unfold countRecords; rw [List.countP_append]; rfl)

theorem guard_follows_map_size_witness :
    inMemoryTier initSmall 5 = false ∧
    compressedSizeBytes rZero < 256 ∧
    (5 : Nat) ≠ SENTINEL_HASH ∧
    initSmall.m_outfile_open = true ∧
    initSmall.m_outfile_good = true ∧
    (countGuards (NNCache.insert initSmall 5 rZero).m_outfile
        = countGuards initSmall.m_outfile
          + (if (mapInsert initSmall.m_outfile_map 5 initSmall.m_outfile_pos).length
               % 1024 = 0 then 1 else 0) ∧
     countRecords (NNCache.insert initSmall 5 rZero).m_outfile
        = countRecords initSmall.m_outfile + 1) := by
  have h1 : inMemoryTier initSmall 5 = false := by rw [initSmall_eq]; rfl
  have h2 : compressedSizeBytes rZero < 256 := by rw [compressedSizeBytes_rZero]; omega
  have h3 : (5 : Nat) ≠ SENTINEL_HASH := by unfold SENTINEL_HASH; omega
  have h4 : initSmall.m_outfile_open = true := by rw [initSmall_eq]
  have h5 : initSmall.m_outfile_good = true := by rw [initSmall_eq]
  exact ⟨h1, h2, h3, h4, h5, guard_follows_map_size initSmall 5 rZero h1 h2 h3 h4 h5⟩

theorem lookup_map_self_mem (f : Nat → Netresult) :
    ∀ (l : List Nat) (n : Nat), n ∈ l →
      ((l.map (fun i => (i, f i))).lookup n).isSome = true := by
  intro l
  induction l with
  | nil => intro n hn; exact absurd hn (List.not_mem_nil n)
  | cons a t ih =>
    intro n hn
    by_cases hna : n = a
    · subst hna
      simp only [List.map_cons, List.lookup, beq_self_eq_true]
      rfl
    · simp only [List.map_cons, List.lookup, beq_eq_false_iff_ne.mpr hna]
      exact ih n (List.mem_of_ne_of_mem hna hn)

theorem runList_append_singleton (st : CacheState) (l : List Nat) (h : Nat)
    (res : Nat → Netresult) :
    runList st (l ++ [h]) res = NNCache.insert (runList st l res) h (res h) := by
  unfold runList
  rw [List.foldl_append]
  rfl

theorem runList_memOnly (M : Nat) (res : Nat → Netresult) :
    ∀ hs : List Nat, hs.Nodup →
      (runList (memOnlyState M) hs res).m_cache
          = (hs.drop (hs.length - M)).map (fun h => (h, res h)) ∧
      (runList (memOnlyState M) hs res).m_order = hs.drop (hs.length - M) ∧
      (runList (memOnlyState M) hs res).m_outfile_open = false ∧
      (runList (memOnlyState M) hs res).m_max_cache_size = M := by
  intro hs
  induction hs using List.reverseRecOn with
  | nil =>
    intro _
    refine ⟨?_, ?_, rfl, rfl⟩
    · show ([] : List (Nat × Netresult)) = _
      rw [List.drop_nil, List.map_nil]
    · show ([] : List Nat) = _
      rw [List.drop_nil]
  | append_singleton l h ihl =>
    intro hnd
    have hndl : l.Nodup := (List.nodup_append.mp hnd).1
    have hnotin : h ∉ l := by
      intro hmem
      have := (List.nodup_append.mp hnd).2.2
      exact this hmem (List.mem_singleton_self h)
    obtain ⟨hc, ho, hop, hmc⟩ := ihl hndl
    have hmem : inMemoryTier (runList (memOnlyState M) l res) h = false := by
      unfold inMemoryTier
      rw [hc, lookup_map_self_none res _ h
        (fun hm => hnotin (List.mem_of_mem_drop hm))]
      rfl
    rw [runList_append_singleton]
    rcases Nat.lt_or_ge l.length M with hlt | hge
    · -- no eviction yet
      rw [insert_fresh_closed_nocap _ h (res h) hmem hop
        (by rw [ho, hmc, List.length_drop]; omega)]
      dsimp only
      rw [hc, ho]
      rw [show l.length - M = 0 by omega]
      rw [show (l ++ [h]).length - M = 0 by rw [List.length_append]; simp; omega]
      rw [List.drop_zero, List.drop_zero, List.map_append]
      exact ⟨rfl, rfl, hop, hmc⟩
    · -- at capacity: evict the oldest
      rw [insert_fresh_closed_evict _ h (res h) hmem hop
        (by rw [ho, hmc, List.length_drop]; omega)]
      dsimp only
      rw [hc, ho]
      have hlen2 : (l ++ [h]).length - M = (l.length - M) + 1 := by
        rw [List.length_append]
        simp
        omega
      rcases Nat.eq_zero_or_pos M with hM0 | hMpos
      · subst hM0
        rw [show l.length - 0 = l.length by omega]
        rw [List.drop_length]
        rw [show (l ++ [h]).length - 0 = l.length + 1 by rw [List.length_append]; simp]
        rw [show List.drop (l.length + 1) (l ++ [h]) = [] from
          List.drop_eq_nil_of_le (by rw [List.length_append]; simp)]
        refine ⟨?_, ?_, hop, hmc⟩
        · rw [List.nil_append]
          exact eraseP_head_key h (res h) []
        · rfl
      · obtain ⟨d0, rest, hdecomp⟩ :
            ∃ d0 rest, List.drop (l.length - M) l = d0 :: rest := by
          cases hdl : List.drop (l.length - M) l with
          | nil =>
            exfalso
            have := congrArg List.length hdl
            rw [List.length_drop] at this
            simp at this
            omega
          | cons a b => exact ⟨a, b, rfl⟩
        have hrest : l.drop (l.length - M + 1) = rest := by
          rw [← List.drop_drop, hdecomp]
          rfl
        rw [hdecomp, hlen2]
        rw [List.drop_append_eq_append_drop]
        rw [show l.length - M + 1 - l.length = 0 by omega]
        rw [List.drop_zero, hrest]
        refine ⟨?_, ?_, hop, hmc⟩
        · rw [show ((d0 :: rest) ++ [h]).headD 0 = d0 from rfl]
          rw [List.map_cons, List.cons_append]
          rw [eraseP_head_key d0 (res d0)]
          rw [List.map_append]
          rfl
        · rw [List.cons_append]
          rfl

/-- C7: FIFO eviction.  From an empty memory-only cache of capacity `M`,
after inserting `M + k` distinct fingerprints the first `k` inserted are no
longer in the memory tier, the last `M` are present, and after any prefix
of the inserts the memory tier holds at most `M` entries. -/
theorem fifo_eviction (M k : Nat) (hs : List Nat) (res : Nat → Netresult)
    (hnd : hs.Nodup) (hlen : hs.length = M + k) :
    (∀ h ∈ hs.take k, inMemoryTier (runList (memOnlyState M) hs res) h = false) ∧
    (∀ h ∈ hs.drop k, inMemoryTier (runList (memOnlyState M) hs res) h = true) ∧
    (∀ pre suf : List Nat, hs = pre ++ suf →
      (runList (memOnlyState M) pre res).m_cache.length ≤ M) := by
  obtain ⟨hc, ho, _, _⟩ := runList_memOnly M res hs hnd
  have hk : hs.length - M = k := by omega
  rw [hk] at hc ho
  refine ⟨?_, ?_, ?_⟩
  · intro h hmem
    unfold inMemoryTier
    rw [hc, lookup_map_self_none res _ h
      (fun hin => List.disjoint_take_drop hnd (le_refl k) hmem hin)]
    rfl
  · intro h hmem
    unfold inMemoryTier
    rw [hc]
    exact lookup_map_self_mem res _ h hmem
  · intro pre suf hsplit
    have hndpre : pre.Nodup := by
      subst hsplit
      exact (List.nodup_append.mp hnd).1
    obtain ⟨hcp, _, _, _⟩ := runList_memOnly M res pre hndpre
    rw [hcp, List.length_map, List.length_drop]
    omega

theorem fifo_eviction_witness :
    ([10, 20, 30] : List Nat).Nodup ∧
    ([10, 20, 30] : List Nat).length = 2 + 1 ∧
    ((∀ h ∈ ([10, 20, 30] : List Nat).take 1,
        inMemoryTier (runList (memOnlyState 2) [10, 20, 30] (fun _ => rZero)) h
          = false) ∧
     (∀ h ∈ ([10, 20, 30] : List Nat).drop 1,
        inMemoryTier (runList (memOnlyState 2) [10, 20, 30] (fun _ => rZero)) h
          = true) ∧
     (∀ pre suf : List Nat, ([10, 20, 30] : List Nat) = pre ++ suf →
        (runList (memOnlyState 2) pre (fun _ => rZero)).m_cache.length ≤ 2)) :=
  ⟨by decide, rfl, fifo_eviction 2 1 [10, 20, 30] (fun _ => rZero) (by decide) rfl⟩
